import Mathlib

/-!
Verification of the voidring `BaseRocksDB` store wrapper
(`src/voidring/base_rocksdb.py`) against its specification.

Modelling conventions:

* A Python `str` key is a list of Unicode code points (`Key := List Nat`);
  Python's `<` on `str` is lexicographic comparison of code points, modelled
  by `keyLt`.  rocksdict stores `str` keys under an order-preserving byte
  encoding, so RocksDB's iteration order over all-string keys coincides with
  `keyLt`.
* The store contents visible to one iterator are a snapshot: a list of
  (key, value) pairs strictly ascending by key (`sortedKV`).  The RocksDB
  iterator is a cursor into that list: `seek`, `seek_for_prev`,
  `seek_to_first`, `seek_to_last`, `next`, `prev`, `valid` are modelled by
  `firstIdxGe`, `lastIdxLe`, computed start indices, index moves and an
  `Option Nat` position (`none` = invalid).
* Fallible Python code (a raised exception) is modelled by `Option`/`none`:
  `chr(0x10FFFF + 1)` raises `ValueError`, `str.encode`/`bytes.decode`
  raise on lone surrogates, `base64.urlsafe_b64decode` raises on malformed
  input.
* The generator `BaseRocksDB.iter` is a loop that, per step, either stops or
  moves the iterator one position in a fixed direction, so it makes at most
  `length + 1` steps; it is modelled by fuel recursion with that fuel.
-/

/-- A Python string, as its list of Unicode code points. -/
abbrev Key := List Nat

/-- Python `<` on strings: lexicographic comparison of code points. -/
def keyLt : Key → Key → Bool
  | [], [] => false
  | [], _ :: _ => true
  | _ :: _, [] => false
  | a :: as, b :: bs => if a < b then true else if b < a then false else keyLt as bs

/-- Python `<=` on strings (total order, so `a <= b` iff `not (b < a)`). -/
def keyLe (a b : Key) : Bool := !keyLt b a

/-- Python `key.startswith(p)`: `p` is a leading segment of the string. -/
def keyStartsWith : Key → Key → Bool
  | [], _ => true
  | _ :: _, [] => false
  | p :: ps, k :: ks => p == k && keyStartsWith ps ks

/-- Python `chr`: defined only for code points below 0x110000, otherwise
`ValueError`. -/
def chrOrd (n : Nat) : Option Nat := if n < 1114112 then some n else none

/-- Lines 197-198 of `base_rocksdb.py`: the derived exclusive upper bound for
a non-empty iteration key lower-bound segment `p`, namely
`p[:-1] + chr(ord(p[-1]) + 1)`; `none` models the `ValueError` raised by
`chr` when the last code point of `p` is the maximum one (U+10FFFF). -/
def pfxUpper (p : Key) : Option Key :=
  match p.getLast? with
  | none => none
  | some c => (chrOrd (c + 1)).map (fun c2 => p.dropLast ++ [c2])

/-- Line 236 / 228 of the source: `start is not None and key < start`. -/
def checkLtStart (k : Key) (startO : Option Key) : Bool :=
  match startO with
  | some s => keyLt k s
  | none => false

/-- Line 234 / 230 of the source: `end is not None and key >= end`. -/
def checkGeEnd (k : Key) (endO : Option Key) : Bool :=
  match endO with
  | some e => !keyLt k e
  | none => false

/-- The half-open range predicate `[start, end)` that the iteration loop
enforces on yielded keys (absent bound = unbounded). -/
def inRange (startO endO : Option Key) (k : Key) : Bool :=
  !checkLtStart k startO && !checkGeEnd k endO

/-- RocksDB `seek(s)`: index of the first entry whose key is `>= s`
(`none` when the iterator becomes invalid). The snapshot is sorted, so the
first entry in list order with `key >= s` is the seek target. -/
def firstIdxGe {V : Type} (db : List (Key × V)) (s : Key) : Option Nat :=
  match db with
  | [] => none
  | kv :: rest =>
    if !keyLt kv.1 s then some 0
    else (firstIdxGe rest s).map (· + 1)

/-- RocksDB `seek_for_prev(e)`: index of the last entry whose key is `<= e`
(`none` when the iterator becomes invalid). -/
def lastIdxLe {V : Type} (db : List (Key × V)) (e : Key) : Option Nat :=
  match db with
  | [] => none
  | kv :: rest =>
    match lastIdxLe rest e with
    | some i => some (i + 1)
    | none => if !keyLt e kv.1 then some 0 else none

/-- RocksDB `seek_to_first`. -/
def seekToFirst {V : Type} (db : List (Key × V)) : Option Nat :=
  if db.isEmpty then none else some 0

/-- RocksDB `seek_to_last`. -/
def seekToLast {V : Type} (db : List (Key × V)) : Option Nat :=
  if db.isEmpty then none else some (db.length - 1)

/-- The `while it.valid()` loop of `BaseRocksDB.iter` (lines 223-263),
specialized to `reverse=False`.  At a valid position `i` holding `(k, v)`:
if `key >= end` break; if `key < start` advance (`it.next()`) and continue;
if a non-empty scan prefix `p` is set and `key` does not start with it,
break when `key > p` else advance and continue; otherwise yield and advance.
Invalid positions (`none`, or an index past the end) terminate.  The loop
moves right one step per iteration, so fuel `db.length + 1` is never
exhausted when starting inside the list. -/
def iterLoopFwd {V : Type} (db : List (Key × V)) (pfxO startO endO : Option Key) :
    Nat → Option Nat → List (Key × V)
  | 0, _ => []
  | _ + 1, none => []
  | fuel + 1, some i =>
    match db[i]? with
    | none => []
    | some kv =>
      if checkGeEnd kv.1 endO then []
      else if checkLtStart kv.1 startO then
        iterLoopFwd db pfxO startO endO fuel (some (i + 1))
      else
        match pfxO with
        | none => kv :: iterLoopFwd db pfxO startO endO fuel (some (i + 1))
        | some p =>
          if p.isEmpty || keyStartsWith p kv.1 then
            kv :: iterLoopFwd db pfxO startO endO fuel (some (i + 1))
          else if keyLt p kv.1 then []
          else iterLoopFwd db pfxO startO endO fuel (some (i + 1))

/-- The same loop specialized to `reverse=True`: break on `key < start`,
retreat (`it.prev()`) on `key >= end`, on a prefix mismatch break when
`key < p` else retreat, otherwise yield and retreat.  `it.prev()` at
position 0 invalidates the iterator. -/
def iterLoopRev {V : Type} (db : List (Key × V)) (pfxO startO endO : Option Key) :
    Nat → Option Nat → List (Key × V)
  | 0, _ => []
  | _ + 1, none => []
  | fuel + 1, some i =>
    match db[i]? with
    | none => []
    | some kv =>
      if checkLtStart kv.1 startO then []
      else if checkGeEnd kv.1 endO then
        iterLoopRev db pfxO startO endO fuel (if i = 0 then none else some (i - 1))
      else
        match pfxO with
        | none => kv :: iterLoopRev db pfxO startO endO fuel (if i = 0 then none else some (i - 1))
        | some p =>
          if p.isEmpty || keyStartsWith p kv.1 then
            kv :: iterLoopRev db pfxO startO endO fuel (if i = 0 then none else some (i - 1))
          else if keyLt p kv.1 then
            iterLoopRev db pfxO startO endO fuel (if i = 0 then none else some (i - 1))
          else []

/-- Lines 192-198 of `BaseRocksDB.iter`: when a non-empty scan prefix is
given, default `start` to the prefix itself and default `end` to
`pfxUpper`; `none` models the `ValueError` escaping from `chr`. -/
def deriveBounds (pfxO startO endO : Option Key) :
    Option (Option Key × Option Key) :=
  match pfxO with
  | none => some (startO, endO)
  | some p =>
    if p.isEmpty then some (startO, endO)
    else
      let s2 := match startO with
        | none => some p
        | some s => some s
      match endO with
      | some e => some (s2, some e)
      | none => (pfxUpper p).map (fun e => (s2, some e))

/-- Lines 204-263 of `BaseRocksDB.iter`: position the iterator
(`seek`/`seek_for_prev`/`seek_to_first`/`seek_to_last` according to the
direction) and run the yield loop.  An initially invalid iterator yields
nothing (the `seek_for_prev(start)` on line 219 happens right before
`return` and has no observable effect). -/
def iterCore {V : Type} (db : List (Key × V)) (pfxO startO endO : Option Key)
    (rev : Bool) : List (Key × V) :=
  let pos0 : Option Nat :=
    if rev then
      match endO with
      | some e => lastIdxLe db e
      | none => seekToLast db
    else
      match startO with
      | some s => firstIdxGe db s
      | none => seekToFirst db
  if rev then iterLoopRev db pfxO startO endO (db.length + 1) pos0
  else iterLoopFwd db pfxO startO endO (db.length + 1) pos0

/-- `BaseRocksDB.iter` (lines 162-263): derive bounds from the scan prefix,
swap the bounds when iterating in reverse with `start > end` (lines
200-202), then run the seek-and-scan loop.  `none` models a raised
exception. -/
def iterModel {V : Type} (db : List (Key × V)) (pfxO startO endO : Option Key)
    (rev : Bool) : Option (List (Key × V)) :=
  (deriveBounds pfxO startO endO).map (fun se =>
    let s1 := se.1
    let e1 := se.2
    let swapped : Option Key × Option Key :=
      if rev then
        match s1, e1 with
        | some s, some e => if keyLt e s then (some e, some s) else (some s, some e)
        | _, _ => (s1, e1)
      else (s1, e1)
    iterCore db pfxO swapped.1 swapped.2 rev)

/-- `BaseRocksDB.items` (lines 265-300): materialize the iterator, with
`islice` truncation when a limit is given. -/
def itemsModel {V : Type} (db : List (Key × V)) (pfxO startO endO : Option Key)
    (rev : Bool) (limit : Option Nat) : Option (List (Key × V)) :=
  (iterModel db pfxO startO endO rev).map (fun l =>
    match limit with
    | some n => l.take n
    | none => l)

/-- The store snapshot is strictly ascending by key (RocksDB holds at most
one live entry per key and iterates in key order). -/
def sortedKV {V : Type} : List (Key × V) → Bool
  | [] => true
  | [_] => true
  | a :: b :: t => keyLt a.1 b.1 && sortedKV (b :: t)

/-- One sextet of the urlsafe base64 alphabet, as the code point of its
character (`A-Z`, `a-z`, `0-9`, `-`, `_`). -/
def b64Char (s : Nat) : Nat :=
  if s < 26 then 65 + s
  else if s < 52 then 97 + (s - 26)
  else if s < 62 then 48 + (s - 52)
  else if s = 62 then 45
  else 95

/-- Inverse alphabet lookup used by base64 decoding. -/
def b64Val (c : Nat) : Nat :=
  if 65 ≤ c ∧ c ≤ 90 then c - 65
  else if 97 ≤ c ∧ c ≤ 122 then 26 + (c - 97)
  else if 48 ≤ c ∧ c ≤ 57 then 52 + (c - 48)
  else if c = 45 then 62
  else 63

/-- `base64.urlsafe_b64encode`: bytes in, characters (code points) out,
three bytes per four characters, `=` (61) padding on the final group. -/
def b64Encode : List Nat → List Nat
  | [] => []
  | [a] => [b64Char (a / 4), b64Char (a % 4 * 16), 61, 61]
  | [a, b] => [b64Char (a / 4), b64Char (a % 4 * 16 + b / 16), b64Char (b % 16 * 4), 61]
  | a :: b :: c :: rest =>
    b64Char (a / 4) :: b64Char (a % 4 * 16 + b / 16) ::
      b64Char (b % 16 * 4 + c / 64) :: b64Char (c % 64) :: b64Encode rest

/-- `base64.urlsafe_b64decode`: four characters per three bytes, handling
the padded final group; `none` models the `binascii.Error` raised when the
input length is not a multiple of four. -/
def b64Decode : List Nat → Option (List Nat)
  | [] => some []
  | c1 :: c2 :: c3 :: c4 :: rest =>
    let v1 := b64Val c1
    let v2 := b64Val c2
    if c3 = 61 then
      if c4 = 61 ∧ rest.isEmpty then some [v1 * 4 + v2 / 16] else none
    else if c4 = 61 then
      if rest.isEmpty then some [v1 * 4 + v2 / 16, v2 % 16 * 16 + b64Val c3 / 4]
      else none
    else
      (b64Decode rest).map (fun bs =>
        (v1 * 4 + v2 / 16) :: (v2 % 16 * 16 + b64Val c3 / 4) ::
          (b64Val c3 % 4 * 64 + b64Val c4) :: bs)
  | _ => none

/-- A code point CPython's UTF-8 codec accepts: below 0x110000 and not a
lone surrogate. -/
def validChar (c : Nat) : Prop := c < 1114112 ∧ (c < 55296 ∨ 57344 ≤ c)

instance (c : Nat) : Decidable (validChar c) := by unfold validChar; infer_instance

/-- Every code point of the string is encodable (`str.encode` succeeds). -/
def validKey (k : Key) : Prop := ∀ c ∈ k, validChar c

instance (k : Key) : Decidable (validKey k) := by unfold validKey; infer_instance

/-- UTF-8 encoding of one code point; `none` models `UnicodeEncodeError`
(lone surrogate or out of range). -/
def utf8EncodeChar (c : Nat) : Option (List Nat) :=
  if c < 128 then some [c]
  else if c < 2048 then some [192 + c / 64, 128 + c % 64]
  else if c < 65536 then
    if 55296 ≤ c ∧ c < 57344 then none
    else some [224 + c / 4096, 128 + c / 64 % 64, 128 + c % 64]
  else if c < 1114112 then
    some [240 + c / 262144, 128 + c / 4096 % 64, 128 + c / 64 % 64, 128 + c % 64]
  else none

/-- Python `str.encode()` (strict UTF-8). -/
def utf8Encode : Key → Option (List Nat)
  | [] => some []
  | c :: cs =>
    match utf8EncodeChar c, utf8Encode cs with
    | some bs, some rest => some (bs ++ rest)
    | _, _ => none

/-- One step of strict UTF-8 parsing: decode the leading character of a
byte string, returning it with the remaining bytes; rejects truncated
sequences, bad continuation bytes, overlong forms and surrogates. -/
def utf8DecodeStep : List Nat → Option (Nat × List Nat)
  | [] => none
  | b0 :: rest =>
    if b0 < 128 then some (b0, rest)
    else if b0 < 192 then none
    else if b0 < 224 then
      match rest with
      | b1 :: rest2 =>
        if 128 ≤ b1 ∧ b1 < 192 then
          if 128 ≤ (b0 - 192) * 64 + (b1 - 128) then
            some ((b0 - 192) * 64 + (b1 - 128), rest2)
          else none
        else none
      | [] => none
    else if b0 < 240 then
      match rest with
      | b1 :: b2 :: rest2 =>
        if (128 ≤ b1 ∧ b1 < 192) ∧ (128 ≤ b2 ∧ b2 < 192) then
          if 2048 ≤ (b0 - 224) * 4096 + (b1 - 128) * 64 + (b2 - 128) ∧
              ¬(55296 ≤ (b0 - 224) * 4096 + (b1 - 128) * 64 + (b2 - 128) ∧
                (b0 - 224) * 4096 + (b1 - 128) * 64 + (b2 - 128) < 57344) then
            some ((b0 - 224) * 4096 + (b1 - 128) * 64 + (b2 - 128), rest2)
          else none
        else none
      | _ => none
    else if b0 < 248 then
      match rest with
      | b1 :: b2 :: b3 :: rest2 =>
        if ((128 ≤ b1 ∧ b1 < 192) ∧ (128 ≤ b2 ∧ b2 < 192)) ∧ (128 ≤ b3 ∧ b3 < 192) then
          if 65536 ≤ (b0 - 240) * 262144 + (b1 - 128) * 4096 + (b2 - 128) * 64 + (b3 - 128) ∧
              (b0 - 240) * 262144 + (b1 - 128) * 4096 + (b2 - 128) * 64 + (b3 - 128) <
                1114112 then
            some ((b0 - 240) * 262144 + (b1 - 128) * 4096 + (b2 - 128) * 64 + (b3 - 128), rest2)
          else none
        else none
      | _ => none
    else none

/-- Iterated UTF-8 parsing; every step consumes at least one byte, so a
fuel of the byte count suffices and the fuel is only a termination
device. -/
def utf8DecodeLoop : Nat → List Nat → Option Key
  | _, [] => some []
  | 0, _ :: _ => none
  | fuel + 1, b0 :: rest =>
    match utf8DecodeStep (b0 :: rest) with
    | some cr => (utf8DecodeLoop fuel cr.2).map (cr.1 :: ·)
    | none => none

/-- Python `bytes.decode()` (strict UTF-8); `none` models
`UnicodeDecodeError`. -/
def utf8Decode (bs : List Nat) : Option Key := utf8DecodeLoop bs.length bs

/-- `BaseRocksDB._encode_cursor` (lines 519-522):
`base64.urlsafe_b64encode(str(key).encode()).decode()`.  The base64 output
is ASCII, so its bytes and code points coincide. -/
def encodeCursor (k : Key) : Option (List Nat) :=
  (utf8Encode k).map b64Encode

/-- `BaseRocksDB._decode_cursor` (lines 524-529):
`base64.urlsafe_b64decode(cursor.encode()).decode()` followed by appending
`'\0'`, producing the resume key strictly after the encoded key. -/
def decodeCursor (c : List Nat) : Option Key :=
  match b64Decode c with
  | none => none
  | some bs => (utf8Decode bs).map (fun k => k ++ [0])

/-- The dict returned by `BaseRocksDB.paginate`; `prevCursor = none` models
the `prev_cursor` entry being absent. -/
structure Page (V : Type) where
  items : List (Key × V)
  hasMore : Bool
  nextCursor : Option (List Nat)
  prevCursor : Option (List Nat)
deriving DecidableEq

/-- Lines 485-488 of `paginate`: a truthy cursor is decoded and replaces
the `start` bound; `none` models the decode raising. -/
def cursorStart (cursor : Option (List Nat)) (startO : Option Key) : Option (Option Key) :=
  match cursor with
  | some c => if c.isEmpty then some startO else (decodeCursor c).map some
  | none => some startO

/-- Python truthiness of the optional cursor string (`if cursor:`). -/
def cursorTruthy : Option (List Nat) → Bool
  | some c => !c.isEmpty
  | none => false

/-- Lines 502-505 of `paginate`: `next_cursor` is the encoding of the last
returned item's key when `has_more` holds and the page is nonempty,
otherwise `None`; the outer `none` models the encoding itself raising. -/
def nextCursorOf {V : Type} (hasMore : Bool) (items2 : List (Key × V)) :
    Option (Option (List Nat)) :=
  if hasMore ∧ ¬items2.isEmpty then
    match items2.getLast? with
    | some kv => (encodeCursor kv.1).map some
    | none => some none
  else some none

/-- `BaseRocksDB.paginate` (lines 462-517): decode a truthy cursor into the
`start` bound (overwriting any caller-supplied `start`), fetch
`page_size + 1` items, trim the extra item when present
(`has_more = decide (page_size < fetched.length)` appears inline where the
source binds it once), and encode the last returned key as `next_cursor`
when more data remains.  `none` models a raised exception (undecodable
cursor, or an unencodable key). -/
def paginateModel {V : Type} (db : List (Key × V)) (pageSize : Nat)
    (cursor : Option (List Nat)) (includeCursor : Bool)
    (pfxO startO endO : Option Key) (rev : Bool) : Option (Page V) :=
  match cursorStart cursor startO with
  | none => none
  | some s2 =>
    match itemsModel db pfxO s2 endO rev (some (pageSize + 1)) with
    | none => none
    | some fetched =>
      match nextCursorOf (decide (pageSize < fetched.length))
          (if decide (pageSize < fetched.length) then fetched.take pageSize else fetched) with
      | none => none
      | some nc =>
        some { items := if decide (pageSize < fetched.length) then fetched.take pageSize
                 else fetched,
               hasMore := decide (pageSize < fetched.length), nextCursor := nc,
               prevCursor := if includeCursor && cursorTruthy cursor then cursor
                 else none }

/-- The pagination protocol of the spec's completeness property: call
`paginate`, and while `has_more` holds feed `next_cursor` into the next
call, concatenating the returned items; the result also carries the final
page's `has_more` and `next_cursor`.  The first argument bounds the number
of calls; `none` models a raised exception or an exhausted bound. -/
def paginateAll {V : Type} (db : List (Key × V)) (pageSize : Nat) :
    Nat → Option (List Nat) → Option (List (Key × V) × Bool × Option (List Nat))
  | 0, _ => none
  | fuel + 1, cursor =>
    match paginateModel db pageSize cursor true none none none false with
    | none => none
    | some pg =>
      if pg.hasMore then
        match pg.nextCursor with
        | some c =>
          match paginateAll db pageSize fuel (some c) with
          | none => none
          | some r => some (pg.items ++ r.1, r.2.1, r.2.2)
        | none => none
      else some (pg.items, pg.hasMore, pg.nextCursor)

/-- rocksdict `Rdict.get(key, default)`: the stored value, or the default
when the key is absent (RocksDB's not-found read). -/
def rdictGet {V : Type} (db : List (Key × V)) (k : Key) (dflt : Option V) : Option V :=
  match (db.find? (fun kv => kv.1 == k)).map (fun kv => kv.2) with
  | some v => some v
  | none => dflt

/-- `BaseRocksDB.get` (lines 137-160): delegate to `Rdict.get` with the
default, additionally normalizing a `KeyError` to the default; total, so a
missing key is never surfaced as an error. -/
def dbGet {V : Type} (db : List (Key × V)) (k : Key) (dflt : Option V) : Option V :=
  rdictGet db k dflt

/-- rocksdict `del rdict[key]`: RocksDB `Delete` is a blind tombstone
write, removing the key when present and doing nothing otherwise; it never
raises for a missing key. -/
def rdictDelete {V : Type} (db : List (Key × V)) (k : Key) : List (Key × V) :=
  db.filter (fun kv => kv.1 != k)

/-- `BaseRocksDB.delete` (lines 126-135): `del target[key]`; total. -/
def dbDelete {V : Type} (db : List (Key × V)) (k : Key) : List (Key × V) :=
  rdictDelete db k

theorem keyLt_irrefl : ∀ (a : Key), keyLt a a = false := by
  intro a
  induction a with
  | nil => rfl
  | cons x xs ih => simp [keyLt, ih]

theorem keyLt_trans : ∀ (a b c : Key), keyLt a b = true → keyLt b c = true → keyLt a c = true := by
  intro a
  induction a with
  | nil =>
    intro b c hab hbc
    cases b with
    | nil => simp [keyLt] at hab
    | cons y ys =>
      cases c with
      | nil => simp [keyLt] at hbc
      | cons z zs => simp [keyLt]
  | cons x xs ih =>
    intro b c hab hbc
    cases b with
    | nil => simp [keyLt] at hab
    | cons y ys =>
      cases c with
      | nil => simp [keyLt] at hbc
      | cons z zs =>
        rw [keyLt] at hab hbc ⊢
        rcases Nat.lt_trichotomy x y with h1 | h1 | h1
        · rcases Nat.lt_trichotomy y z with h2 | h2 | h2
          · simp [Nat.lt_trans h1 h2]
          · subst h2
            simp [h1]
          · simp [h2, Nat.lt_asymm h2] at hbc
        · subst h1
          rcases Nat.lt_trichotomy x z with h2 | h2 | h2
          · simp [h2]
          · subst h2
            simp only [Nat.lt_irrefl, if_false] at hab hbc ⊢
            exact ih _ _ hab hbc
          · simp [h2, Nat.lt_asymm h2] at hbc
        · simp [h1, Nat.lt_asymm h1] at hab

theorem keyLt_false_total : ∀ (a b : Key), keyLt a b = false → keyLt b a = true ∨ a = b := by
  intro a
  induction a with
  | nil =>
    intro b h
    cases b with
    | nil => right; rfl
    | cons y ys => simp [keyLt] at h
  | cons x xs ih =>
    intro b h
    cases b with
    | nil => left; rfl
    | cons y ys =>
      rw [keyLt] at h
      rcases Nat.lt_trichotomy x y with h1 | h1 | h1
      · simp [h1] at h
      · subst h1
        simp only [Nat.lt_irrefl, if_false] at h
        rcases ih ys h with h2 | h2
        · left
          rw [keyLt]
          simp [Nat.lt_irrefl, h2]
        · right
          rw [h2]
      · left
        rw [keyLt]
        simp [h1, Nat.lt_asymm h1]

theorem keyLt_asymm : ∀ (a b : Key), keyLt a b = true → keyLt b a = false := by
  intro a b hab
  cases h2 : keyLt b a with
  | false => rfl
  | true =>
    have := keyLt_trans a b a hab h2
    rw [keyLt_irrefl] at this
    exact absurd this (by simp)

theorem keyLt_nil_right : ∀ (a : Key), keyLt a [] = false := by
  intro a
  cases a <;> rfl

/-- whoever is strictly above something is nonempty -/
theorem keyLt_ne_nil : ∀ (a b : Key), keyLt a b = true → b ≠ [] := by
  intro a b h hb
  subst hb
  rw [keyLt_nil_right] at h
  exact absurd h (by simp)

/-- a proper extension is strictly greater -/
theorem keyLt_append_cons : ∀ (a : Key) (c : Nat) (t : Key), keyLt a (a ++ c :: t) = true := by
  intro a c t
  induction a with
  | nil => simp [keyLt]
  | cons x xs ih => simpa [keyLt] using ih

/-- everything strictly above `k` is at least `k ++ [0]` (the key the cursor
decoder resumes from): resuming strictly after `k` skips nothing above `k`. -/
theorem keyLt_zero_ext : ∀ (k m : Key), keyLt k m = true → keyLt m (k ++ [0]) = false := by
  intro k
  induction k with
  | nil =>
    intro m h
    cases m with
    | nil => simp [keyLt] at h
    | cons y ys =>
      rw [List.nil_append, keyLt]
      cases y with
      | zero => simp [keyLt_nil_right]
      | succ n => simp
  | cons x xs ih =>
    intro m h
    cases m with
    | nil => simp [keyLt] at h
    | cons y ys =>
      rw [keyLt] at h
      rw [List.cons_append, keyLt]
      rcases Nat.lt_trichotomy y x with h1 | h1 | h1
      · simp [h1, Nat.lt_asymm h1] at h
      · subst h1
        simp only [Nat.lt_irrefl, if_false] at h ⊢
        exact ih ys h
      · simp [h1, Nat.lt_asymm h1]

/-- `keyLt k x → keyLt k e = false → keyLt x e = false`: keys above a key
that already reached the `end` bound are also past the bound. -/
theorem keyLt_false_of_lt_of_false : ∀ (k x e : Key),
    keyLt k x = true → keyLt k e = false → keyLt x e = false := by
  intro k x e hkx hke
  cases hxe : keyLt x e with
  | false => rfl
  | true =>
    rcases keyLt_false_total k e hke with h1 | h1
    · have := keyLt_trans e k x h1 hkx
      have h2 := keyLt_asymm x e hxe
      rw [h2] at this
      exact absurd this (by simp)
    · subst h1
      have := keyLt_asymm k x hkx
      rw [this] at hxe
      exact absurd hxe (by simp)

theorem sortedKV_pairwise {V : Type} :
    ∀ (db : List (Key × V)), sortedKV db = true →
      List.Pairwise (fun a b => keyLt a.1 b.1 = true) db := by
  intro db
  induction db with
  | nil => intro _; exact List.Pairwise.nil
  | cons a rest ih =>
    cases rest with
    | nil => intro _; simp
    | cons b t =>
      intro h
      simp only [sortedKV, Bool.and_eq_true] at h
      have hp := ih h.2
      refine List.Pairwise.cons ?_ hp
      intro x hx
      rcases List.mem_cons.mp hx with rfl | hx2
      · exact h.1
      · exact keyLt_trans _ _ _ h.1 ((List.pairwise_cons.mp hp).1 x hx2)

theorem firstIdxGe_none {V : Type} :
    ∀ (db : List (Key × V)) (s : Key), firstIdxGe db s = none →
      ∀ x ∈ db, keyLt x.1 s = true := by
  intro db s
  induction db with
  | nil => intro _ x hx; exact absurd hx (List.not_mem_nil x)
  | cons kv rest ih =>
    intro h x hx
    rw [firstIdxGe] at h
    by_cases hlt : keyLt kv.1 s
    · simp only [hlt, Bool.not_true] at h
      rw [if_neg (by simp)] at h
      rw [Option.map_eq_none'] at h
      rcases List.mem_cons.mp hx with rfl | hx2
      · exact hlt
      · exact ih h x hx2
    · simp [hlt] at h

theorem firstIdxGe_some {V : Type} :
    ∀ (db : List (Key × V)) (s : Key) (i : Nat), firstIdxGe db s = some i →
      i < db.length ∧ (∃ kv, db[i]? = some kv ∧ keyLt kv.1 s = false) ∧
        ∀ x ∈ db.take i, keyLt x.1 s = true := by
  intro db s
  induction db with
  | nil => intro i h; simp [firstIdxGe] at h
  | cons kv rest ih =>
    intro i h
    rw [firstIdxGe] at h
    by_cases hlt : keyLt kv.1 s
    · simp only [hlt, Bool.not_true] at h
      rw [if_neg (by simp)] at h
      rw [Option.map_eq_some'] at h
      obtain ⟨j, hj, hij⟩ := h
      obtain ⟨hjlen, ⟨kv2, hkv2, hkv2s⟩, htake⟩ := ih j hj
      subst hij
      refine ⟨by simpa using hjlen, ⟨kv2, by simpa using hkv2, hkv2s⟩, ?_⟩
      intro x hx
      rw [List.take_succ_cons] at hx
      rcases List.mem_cons.mp hx with rfl | hx2
      · exact hlt
      · exact htake x hx2
    · simp only [Bool.not_eq_true] at hlt
      simp only [hlt, Bool.not_false, if_true, Option.some.injEq] at h
      subst h
      exact ⟨by simp, ⟨kv, by simp, hlt⟩, by simp⟩

theorem lastIdxLe_none {V : Type} :
    ∀ (db : List (Key × V)) (e : Key), lastIdxLe db e = none →
      ∀ x ∈ db, keyLt e x.1 = true := by
  intro db e
  induction db with
  | nil => intro _ x hx; exact absurd hx (List.not_mem_nil x)
  | cons kv rest ih =>
    intro h x hx
    rw [lastIdxLe] at h
    cases hrest : lastIdxLe rest e with
    | some j => rw [hrest] at h; exact absurd h (by simp)
    | none =>
      rw [hrest] at h
      by_cases hle : keyLt e kv.1
      · rcases List.mem_cons.mp hx with rfl | hx2
        · exact hle
        · exact ih hrest x hx2
      · simp [hle] at h

theorem lastIdxLe_some {V : Type} :
    ∀ (db : List (Key × V)) (e : Key) (i : Nat), lastIdxLe db e = some i →
      i < db.length ∧ (∃ kv, db[i]? = some kv ∧ keyLt e kv.1 = false) ∧
        ∀ x ∈ db.drop (i + 1), keyLt e x.1 = true := by
  intro db e
  induction db with
  | nil => intro i h; simp [lastIdxLe] at h
  | cons kv rest ih =>
    intro i h
    rw [lastIdxLe] at h
    cases hrest : lastIdxLe rest e with
    | some j =>
      rw [hrest] at h
      simp only [Option.some.injEq] at h
      subst h
      obtain ⟨hjlen, ⟨kv2, hkv2, hkv2e⟩, hdrop⟩ := ih j hrest
      exact ⟨by simpa using hjlen, ⟨kv2, by simpa using hkv2, hkv2e⟩, by simpa using hdrop⟩
    | none =>
      rw [hrest] at h
      by_cases hle : keyLt e kv.1
      · simp [hle] at h
      · simp only [Bool.not_eq_true] at hle
        simp only [hle, Bool.not_false, if_true, Option.some.injEq] at h
        subst h
        refine ⟨by simp, ⟨kv, by simp, hle⟩, ?_⟩
        intro x hx
        rw [List.drop_succ_cons, List.drop_zero] at hx
        exact lastIdxLe_none rest e hrest x hx

theorem iterLoopFwd_none {V : Type} (db : List (Key × V)) (pfxO startO endO : Option Key) :
    ∀ fuel, iterLoopFwd db pfxO startO endO fuel none = [] := by
  intro fuel
  cases fuel <;> rfl

theorem iterLoopRev_none {V : Type} (db : List (Key × V)) (pfxO startO endO : Option Key) :
    ∀ fuel, iterLoopRev db pfxO startO endO fuel none = [] := by
  intro fuel
  cases fuel <;> rfl

/-- Forward scan from position `i` with no scan prefix yields exactly the
in-range entries of the suffix `db.drop i`, in list order. -/
theorem iterLoopFwd_filter {V : Type} (db : List (Key × V))
    (hp : List.Pairwise (fun a b => keyLt a.1 b.1 = true) db) (startO endO : Option Key) :
    ∀ fuel i, db.length - i < fuel →
      iterLoopFwd db none startO endO fuel (some i) =
        (db.drop i).filter (fun kv => inRange startO endO kv.1) := by
  intro fuel
  induction fuel with
  | zero => intro i h; omega
  | succ fuel ih =>
    intro i h
    cases hdb : db[i]? with
    | none =>
      have hlen : db.length ≤ i := List.getElem?_eq_none_iff.mp hdb
      simp only [iterLoopFwd, hdb]
      rw [List.drop_eq_nil_of_le hlen]
      rfl
    | some kv =>
      simp only [iterLoopFwd, hdb]
      obtain ⟨hi, hkv⟩ := List.getElem?_eq_some.mp hdb
      have hdrop : db.drop i = kv :: db.drop (i + 1) := by
        rw [List.drop_eq_getElem_cons hi, hkv]
      have hpd : List.Pairwise (fun a b => keyLt a.1 b.1 = true) (db.drop i) :=
        hp.sublist (List.drop_sublist i db)
      rw [hdrop] at hpd
      have hhead : ∀ x ∈ db.drop (i + 1), keyLt kv.1 x.1 = true :=
        (List.pairwise_cons.mp hpd).1
      have hfuel2 : db.length - (i + 1) < fuel := by omega
      rw [hdrop, List.filter_cons]
      by_cases h1 : checkGeEnd kv.1 endO
      · rw [if_pos h1]
        have hprednil : (db.drop (i + 1)).filter (fun x => inRange startO endO x.1) = [] := by
          rw [List.filter_eq_nil_iff]
          intro x hx
          cases endO with
          | none => simp [checkGeEnd] at h1
          | some e =>
            have hke : keyLt kv.1 e = false := by
              simp only [checkGeEnd, Bool.not_eq_true'] at h1
              exact h1
            have hxe : keyLt x.1 e = false :=
              keyLt_false_of_lt_of_false kv.1 x.1 e (hhead x hx) hke
            simp [inRange, checkGeEnd, hxe]
        rw [if_neg (by simp [inRange, h1]), hprednil]
      · rw [if_neg h1]
        by_cases h2 : checkLtStart kv.1 startO
        · rw [if_pos h2, if_neg (by simp [inRange, h2]), ih (i + 1) hfuel2]
        · rw [if_neg h2, if_pos (by simp [inRange, h1, h2]), ih (i + 1) hfuel2]

/-- Reverse scan from position `i` with no scan prefix yields exactly the
in-range entries among the first `i + 1` entries, in reversed list order. -/
theorem iterLoopRev_filter {V : Type} (db : List (Key × V))
    (hp : List.Pairwise (fun a b => keyLt a.1 b.1 = true) db) (startO endO : Option Key) :
    ∀ fuel i, i < fuel → i < db.length →
      iterLoopRev db none startO endO fuel (some i) =
        ((db.take (i + 1)).filter (fun kv => inRange startO endO kv.1)).reverse := by
  intro fuel
  induction fuel with
  | zero => intro i h _; omega
  | succ fuel ih =>
    intro i hfl hi
    have hdb : db[i]? = some db[i] := List.getElem?_eq_getElem hi
    simp only [iterLoopRev, hdb]
    have htake : db.take (i + 1) = db.take i ++ [db[i]] := by
      rw [List.take_succ, hdb]
      rfl
    have hpt : List.Pairwise (fun a b => keyLt a.1 b.1 = true) (db.take i ++ [db[i]]) := by
      rw [← htake]
      exact hp.sublist (List.take_sublist (i + 1) db)
    have hhead : ∀ x ∈ db.take i, keyLt x.1 db[i].1 = true := by
      intro x hx
      exact (List.pairwise_append.mp hpt).2.2 x hx db[i] (List.mem_singleton_self _)
    rw [htake, List.filter_append, List.filter_cons, List.filter_nil]
    by_cases h1 : checkLtStart db[i].1 startO
    · rw [if_pos h1]
      have htnil : (db.take i).filter (fun x => inRange startO endO x.1) = [] := by
        rw [List.filter_eq_nil_iff]
        intro x hx
        cases startO with
        | none => simp [checkLtStart] at h1
        | some s =>
          have hxs : keyLt x.1 s = true :=
            keyLt_trans _ _ _ (hhead x hx) h1
          simp [inRange, checkLtStart, hxs]
      rw [if_neg (by simp [inRange, h1]), htnil]
      rfl
    · rw [if_neg h1]
      by_cases h2 : checkGeEnd db[i].1 endO
      · have hcond : (if inRange startO endO db[i].1 = true then [db[i]] else []) = [] := by
          simp [inRange, h2]
        rw [if_pos h2, hcond, List.append_nil]
        by_cases hz : i = 0
        · subst hz
          rw [if_pos rfl, iterLoopRev_none]
          simp
        · rw [if_neg hz, ih (i - 1) (by omega) (by omega)]
          have : i - 1 + 1 = i := by omega
          rw [this]
      · have hcond : (if inRange startO endO db[i].1 = true then [db[i]] else []) = [db[i]] := by
          simp [inRange, h1, h2]
        rw [if_neg h2, hcond, List.reverse_append]
        simp only [List.reverse_cons, List.reverse_nil, List.nil_append, List.singleton_append]
        by_cases hz : i = 0
        · subst hz
          rw [if_pos rfl, iterLoopRev_none]
          simp
        · rw [if_neg hz, ih (i - 1) (by omega) (by omega)]
          have : i - 1 + 1 = i := by omega
          rw [this]

/-- With no scan prefix, the forward scan pipeline (seek + loop) returns
exactly the in-range entries of the whole snapshot, in ascending key
order. -/
theorem iterCore_fwd {V : Type} (db : List (Key × V)) (hs : sortedKV db = true)
    (startO endO : Option Key) :
    iterCore db none startO endO false =
      db.filter (fun kv => inRange startO endO kv.1) := by
  have hp := sortedKV_pairwise db hs
  cases startO with
  | none =>
    cases db with
    | nil => rfl
    | cons kv rest =>
      have hcore : iterCore (kv :: rest) none none endO false =
          iterLoopFwd (kv :: rest) none none endO ((kv :: rest).length + 1) (some 0) := rfl
      rw [hcore, iterLoopFwd_filter (kv :: rest) hp none endO ((kv :: rest).length + 1) 0
        (by omega)]
      rfl
  | some s =>
    have hcore : iterCore db none (some s) endO false =
        iterLoopFwd db none (some s) endO (db.length + 1) (firstIdxGe db s) := rfl
    rw [hcore]
    cases hidx : firstIdxGe db s with
    | none =>
      rw [iterLoopFwd_none]
      have hall := firstIdxGe_none db s hidx
      rw [eq_comm, List.filter_eq_nil_iff]
      intro x hx
      simp [inRange, checkLtStart, hall x hx]
    | some i =>
      obtain ⟨hi, ⟨kv, hkv, hkvs⟩, htake⟩ := firstIdxGe_some db s i hidx
      rw [iterLoopFwd_filter db hp (some s) endO (db.length + 1) i (by omega)]
      conv_rhs => rw [← List.take_append_drop i db]
      rw [List.filter_append]
      have htnil : (db.take i).filter (fun x => inRange (some s) endO x.1) = [] := by
        rw [List.filter_eq_nil_iff]
        intro x hx
        simp [inRange, checkLtStart, htake x hx]
      rw [htnil, List.nil_append]

/-- With no scan prefix, the reverse scan pipeline returns exactly the
in-range entries of the whole snapshot, in descending key order. -/
theorem iterCore_rev {V : Type} (db : List (Key × V)) (hs : sortedKV db = true)
    (startO endO : Option Key) :
    iterCore db none startO endO true =
      (db.filter (fun kv => inRange startO endO kv.1)).reverse := by
  have hp := sortedKV_pairwise db hs
  cases endO with
  | none =>
    cases db with
    | nil => rfl
    | cons kv rest =>
      have hcore : iterCore (kv :: rest) none startO none true =
          iterLoopRev (kv :: rest) none startO none ((kv :: rest).length + 1)
            (some ((kv :: rest).length - 1)) := rfl
      rw [hcore, iterLoopRev_filter (kv :: rest) hp startO none ((kv :: rest).length + 1)
        ((kv :: rest).length - 1) (by omega) (by simp only [List.length_cons]; omega)]
      have hlen : (kv :: rest).length - 1 + 1 = (kv :: rest).length := by
        simp only [List.length_cons]
        omega
      rw [hlen, List.take_length]
  | some e =>
    have hcore : iterCore db none startO (some e) true =
        iterLoopRev db none startO (some e) (db.length + 1) (lastIdxLe db e) := rfl
    rw [hcore]
    cases hidx : lastIdxLe db e with
    | none =>
      rw [iterLoopRev_none]
      have hall := lastIdxLe_none db e hidx
      have hfilt : db.filter (fun kv => inRange startO (some e) kv.1) = [] := by
        rw [List.filter_eq_nil_iff]
        intro x hx
        have := keyLt_asymm e x.1 (hall x hx)
        simp [inRange, checkGeEnd, this]
      rw [hfilt, List.reverse_nil]
    | some i =>
      obtain ⟨hi, ⟨kv, hkv, hkve⟩, hdrop⟩ := lastIdxLe_some db e i hidx
      rw [iterLoopRev_filter db hp startO (some e) (db.length + 1) i (by omega) hi]
      conv_rhs => rw [← List.take_append_drop (i + 1) db]
      rw [List.filter_append]
      have hdnil : (db.drop (i + 1)).filter (fun x => inRange startO (some e) x.1) = [] := by
        rw [List.filter_eq_nil_iff]
        intro x hx
        have := keyLt_asymm e x.1 (hdrop x hx)
        simp [inRange, checkGeEnd, this]
      rw [hdnil, List.append_nil]

theorem pairwise_sortedKV {V : Type} :
    ∀ (db : List (Key × V)), List.Pairwise (fun a b => keyLt a.1 b.1 = true) db →
      sortedKV db = true := by
  intro db
  induction db with
  | nil => intro _; rfl
  | cons a rest ih =>
    intro h
    cases rest with
    | nil => rfl
    | cons b t =>
      simp only [sortedKV, Bool.and_eq_true]
      have hcons := List.pairwise_cons.mp h
      exact ⟨hcons.1 b (List.mem_cons_self b t), ih hcons.2⟩

/-- `iter` with no scan prefix and `reverse=False` never raises and returns
the in-range entries ascending. -/
theorem iterModel_fwd {V : Type} (db : List (Key × V)) (hs : sortedKV db = true)
    (startO endO : Option Key) :
    iterModel db none startO endO false =
      some (db.filter (fun kv => inRange startO endO kv.1)) := by
  have h0 : iterModel db none startO endO false =
      some (iterCore db none startO endO false) := rfl
  rw [h0, iterCore_fwd db hs]

/-- C2: For every pair of bounds `start`/`end` and every stored key set,
forward iteration (`iter`/`items` with `start` and `end`, `reverse=False`)
yields exactly the stored key-value pairs whose keys satisfy
`start <= key < end` (half-open `[start, end)`), in ascending key order
(the result is the in-order filter of the ascending snapshot, and is itself
ascending). -/
theorem claim_C2_forward_half_open {V : Type} (db : List (Key × V)) (s e : Key)
    (hs : sortedKV db = true) :
    iterModel db none (some s) (some e) false =
      some (db.filter (fun kv => keyLe s kv.1 && keyLt kv.1 e)) ∧
    sortedKV (db.filter (fun kv => keyLe s kv.1 && keyLt kv.1 e)) = true := by
  constructor
  · rw [iterModel_fwd db hs (some s) (some e)]
    congr 1
    apply List.filter_congr
    intro kv _
    simp [inRange, checkLtStart, checkGeEnd, keyLe]
  · apply pairwise_sortedKV
    exact (sortedKV_pairwise db hs).sublist (List.filter_sublist db)

theorem claim_C2_forward_half_open_witness :
    sortedKV [(([97] : Key), 1), ([98], 2), ([99], 3), ([100], 4)] = true ∧
    (iterModel [(([97] : Key), 1), ([98], 2), ([99], 3), ([100], 4)]
        none (some [98]) (some [100]) false =
      some ([(([97] : Key), 1), ([98], 2), ([99], 3), ([100], 4)].filter
        (fun kv => keyLe [98] kv.1 && keyLt kv.1 [100])) ∧
     sortedKV ([(([97] : Key), 1), ([98], 2), ([99], 3), ([100], 4)].filter
        (fun kv => keyLe [98] kv.1 && keyLt kv.1 [100])) = true) :=
  ⟨by decide, claim_C2_forward_half_open _ [98] [100] (by decide)⟩

/-- C3: When reverse iteration is requested with `start > end`, the planner
swaps the bounds internally, so reverse iteration returns exactly the
key-value pairs of the corresponding forward iteration (keys in the
half-open interval `[low, high)`), in the reversed (descending) order. -/
theorem claim_C3_reverse_swap {V : Type} (db : List (Key × V)) (s e : Key)
    (hs : sortedKV db = true) (hlt : keyLt e s = true) :
    iterModel db none (some s) (some e) true =
      (iterModel db none (some e) (some s) false).map List.reverse := by
  have h0 : iterModel db none (some s) (some e) true =
      some (iterCore db none
        ((if keyLt e s then ((some e : Option Key), (some s : Option Key))
          else (some s, some e)).1)
        ((if keyLt e s then ((some e : Option Key), (some s : Option Key))
          else (some s, some e)).2) true) := rfl
  rw [h0, hlt]
  simp only [if_true]
  rw [iterCore_rev db hs (some e) (some s), iterModel_fwd db hs (some e) (some s),
    Option.map_some']

theorem claim_C3_reverse_swap_witness :
    sortedKV [(([97] : Key), 1), ([98], 2), ([99], 3), ([100], 4)] = true ∧
    keyLt [98] [100] = true ∧
    iterModel [(([97] : Key), 1), ([98], 2), ([99], 3), ([100], 4)]
        none (some [100]) (some [98]) true =
      (iterModel [(([97] : Key), 1), ([98], 2), ([99], 3), ([100], 4)]
        none (some [98]) (some [100]) false).map List.reverse :=
  ⟨by decide, by decide, claim_C3_reverse_swap _ [100] [98] (by decide) (by decide)⟩

theorem iterLoopFwd_startsWith {V : Type} (db : List (Key × V)) (p : Key)
    (startO endO : Option Key) (hpne : p.isEmpty = false) :
    ∀ fuel posO kv, kv ∈ iterLoopFwd db (some p) startO endO fuel posO →
      keyStartsWith p kv.1 = true := by
  intro fuel
  induction fuel with
  | zero =>
    intro posO kv h
    rw [iterLoopFwd] at h
    exact absurd h (List.not_mem_nil kv)
  | succ fuel ih =>
    intro posO kv h
    cases posO with
    | none =>
      rw [iterLoopFwd] at h
      exact absurd h (List.not_mem_nil kv)
    | some i =>
      cases hdb : db[i]? with
      | none =>
        simp only [iterLoopFwd, hdb] at h
        exact absurd h (List.not_mem_nil kv)
      | some kv2 =>
        simp only [iterLoopFwd, hdb] at h
        by_cases h1 : checkGeEnd kv2.1 endO
        · rw [if_pos h1] at h
          exact absurd h (List.not_mem_nil kv)
        · rw [if_neg h1] at h
          by_cases h2 : checkLtStart kv2.1 startO
          · rw [if_pos h2] at h
            exact ih _ kv h
          · rw [if_neg h2] at h
            by_cases h3 : (p.isEmpty || keyStartsWith p kv2.1) = true
            · rw [hpne, Bool.false_or] at h3 h
              rw [if_pos h3] at h
              rcases List.mem_cons.mp h with rfl | h4
              · exact h3
              · exact ih _ kv h4
            · rw [if_neg h3] at h
              by_cases h4 : keyLt p kv2.1
              · rw [if_pos h4] at h
                exact absurd h (List.not_mem_nil kv)
              · rw [if_neg h4] at h
                exact ih _ kv h

theorem iterLoopRev_startsWith {V : Type} (db : List (Key × V)) (p : Key)
    (startO endO : Option Key) (hpne : p.isEmpty = false) :
    ∀ fuel posO kv, kv ∈ iterLoopRev db (some p) startO endO fuel posO →
      keyStartsWith p kv.1 = true := by
  intro fuel
  induction fuel with
  | zero =>
    intro posO kv h
    rw [iterLoopRev] at h
    exact absurd h (List.not_mem_nil kv)
  | succ fuel ih =>
    intro posO kv h
    cases posO with
    | none =>
      rw [iterLoopRev] at h
      exact absurd h (List.not_mem_nil kv)
    | some i =>
      cases hdb : db[i]? with
      | none =>
        simp only [iterLoopRev, hdb] at h
        exact absurd h (List.not_mem_nil kv)
      | some kv2 =>
        simp only [iterLoopRev, hdb] at h
        by_cases h1 : checkLtStart kv2.1 startO
        · rw [if_pos h1] at h
          exact absurd h (List.not_mem_nil kv)
        · rw [if_neg h1] at h
          by_cases h2 : checkGeEnd kv2.1 endO
          · rw [if_pos h2] at h
            exact ih _ kv h
          · rw [if_neg h2] at h
            by_cases h3 : (p.isEmpty || keyStartsWith p kv2.1) = true
            · rw [hpne, Bool.false_or] at h3 h
              rw [if_pos h3] at h
              rcases List.mem_cons.mp h with rfl | h4
              · exact h3
              · exact ih _ kv h4
            · rw [if_neg h3] at h
              by_cases h4 : keyLt p kv2.1
              · rw [if_pos h4] at h
                exact ih _ kv h
              · rw [if_neg h4] at h
                exact absurd h (List.not_mem_nil kv)

/-- C9: Every key-value pair yielded by `iter` under a non-empty scan
prefix has a key starting with that prefix — forward or reverse, for every
stored key set and every combination of `start`/`end` bounds (whenever the
call returns at all rather than raising). -/
theorem claim_C9_prefix_invariant {V : Type} (db : List (Key × V)) (p : Key)
    (startO endO : Option Key) (rev : Bool) (res : List (Key × V))
    (hpne : p ≠ [])
    (hres : iterModel db (some p) startO endO rev = some res) :
    ∀ kv ∈ res, keyStartsWith p kv.1 = true := by
  intro kv hkv
  have hpe : p.isEmpty = false := by
    cases p with
    | nil => exact absurd rfl hpne
    | cons c cs => rfl
  rw [iterModel, Option.map_eq_some'] at hres
  obtain ⟨se, _, hcore⟩ := hres
  subst hcore
  rw [iterCore.eq_def] at hkv
  cases rev with
  | false =>
    simp only [if_neg (by simp : ¬ ((false : Bool) = true))] at hkv
    exact iterLoopFwd_startsWith db p _ _ hpe _ _ kv hkv
  | true =>
    simp only [if_pos (rfl : (true : Bool) = true)] at hkv
    exact iterLoopRev_startsWith db p _ _ hpe _ _ kv hkv

theorem claim_C9_prefix_invariant_witness :
    (([98] : Key) ≠ []) ∧
    iterModel ([([97], 1), ([98, 49], 2), ([98, 50], 3), ([99], 4)] : List (Key × Nat))
        (some [98]) none none false = some [([98, 49], 2), ([98, 50], 3)] ∧
    (∀ kv ∈ ([([98, 49], 2), ([98, 50], 3)] : List (Key × Nat)), keyStartsWith [98] kv.1 = true) :=
  ⟨by decide, by decide,
    claim_C9_prefix_invariant ([([97], 1), ([98, 49], 2), ([98, 50], 3), ([99], 4)] : List (Key × Nat))
      [98] none none false [([98, 49], 2), ([98, 50], 3)] (by decide) (by decide)⟩

/-- Supporting fact for the derived scan bound: whenever the bound
computation succeeds, every string starting with the scan prefix lies
strictly below the derived bound. -/
theorem pfxUpper_greater : ∀ (p s bound : Key), pfxUpper p = some bound →
    keyStartsWith p s = true → keyLt s bound = true := by
  intro p
  induction p with
  | nil => intro s bound hb _; simp [pfxUpper] at hb
  | cons c p2 ih =>
    intro s bound hb hsw
    cases s with
    | nil => simp [keyStartsWith] at hsw
    | cons c2 s2 =>
      simp only [keyStartsWith, Bool.and_eq_true, beq_iff_eq] at hsw
      obtain ⟨rfl, hsw2⟩ := hsw
      cases p2 with
      | nil =>
        simp only [pfxUpper, List.getLast?_singleton, chrOrd] at hb
        by_cases hc : c + 1 < 1114112
        · rw [if_pos hc] at hb
          simp only [Option.map_some', Option.some.injEq] at hb
          subst hb
          simp [keyLt, Nat.lt_succ_self]
        · rw [if_neg hc] at hb
          simp at hb
      | cons c3 p3 =>
        have hlast : (c :: c3 :: p3).getLast? = (c3 :: p3).getLast? := by
          rw [List.getLast?_cons_cons]
        have hdl : (c :: c3 :: p3).dropLast = c :: (c3 :: p3).dropLast := rfl
        rw [pfxUpper, hlast, hdl] at hb
        cases hlast2 : (c3 :: p3).getLast? with
        | none => simp [hlast2] at hb
        | some cl =>
          rw [hlast2] at hb
          cases hchr : chrOrd (cl + 1) with
          | none => simp [hchr] at hb
          | some cu =>
            simp only [hchr, Option.map_some', Option.some.injEq] at hb
            subst hb
            have hb2 : pfxUpper (c3 :: p3) = some ((c3 :: p3).dropLast ++ [cu]) := by
              simp only [pfxUpper, hlast2, hchr, Option.map_some']
            have := ih s2 ((c3 :: p3).dropLast ++ [cu]) hb2 hsw2
            simp only [List.cons_append, keyLt, Nat.lt_irrefl, if_false]
            exact this

/-- C4 (code bug): with a scan prefix whose last character is the maximum
code point U+10FFFF and no explicit `end`, the bound derivation computes
`chr(0x10FFFF + 1)`, which raises `ValueError` instead of falling back to
"no upper bound": the model of the derivation and of the whole `iter` call
return `none` (a raised exception). -/
theorem claim_C4_max_char_bound_raises :
    pfxUpper [1114111] = none ∧
    iterModel ([([1114111, 65], 0)] : List (Key × Nat)) (some [1114111]) none none false =
      none :=
  ⟨rfl, rfl⟩

/-- C7: For every key not present in the store, `get(key, default=d)`
returns `d` (and `none` when no default is given, `d = none`); the model is
total, so the missing-key read is normalized to the default, never an
error. -/
theorem claim_C7_get_missing_returns_default {V : Type} (db : List (Key × V)) (k : Key)
    (dflt : Option V) (h : ∀ kv ∈ db, kv.1 ≠ k) :
    dbGet db k dflt = dflt := by
  have hfind : db.find? (fun kv => kv.1 == k) = none := by
    rw [List.find?_eq_none]
    intro x hx
    simp [h x hx]
  simp [dbGet, rdictGet, hfind]

theorem claim_C7_get_missing_returns_default_witness :
    (∀ kv ∈ ([([97], 1), ([98], 2)] : List (Key × Nat)), kv.1 ≠ [120]) ∧
    dbGet ([([97], 1), ([98], 2)] : List (Key × Nat)) [120] (some 9) = some 9 ∧
    dbGet ([([97], 1), ([98], 2)] : List (Key × Nat)) [120] none = none :=
  ⟨by decide,
    claim_C7_get_missing_returns_default _ [120] (some 9) (by decide),
    claim_C7_get_missing_returns_default _ [120] none (by decide)⟩

/-- C8: Deleting a key that is not in the store is a no-op: the model is
total (nothing is raised) and the store contents are unchanged. -/
theorem claim_C8_delete_missing_noop {V : Type} (db : List (Key × V)) (k : Key)
    (h : ∀ kv ∈ db, kv.1 ≠ k) :
    dbDelete db k = db := by
  rw [dbDelete, rdictDelete]
  apply List.filter_eq_self.mpr
  intro kv hkv
  simp [h kv hkv]

theorem claim_C8_delete_missing_noop_witness :
    (∀ kv ∈ ([([97], 1), ([98], 2)] : List (Key × Nat)), kv.1 ≠ [120]) ∧
    dbDelete ([([97], 1), ([98], 2)] : List (Key × Nat)) [120] =
      ([([97], 1), ([98], 2)] : List (Key × Nat)) :=
  ⟨by decide, claim_C8_delete_missing_noop _ [120] (by decide)⟩

theorem b64Val_b64Char : ∀ s : Nat, s < 64 → b64Val (b64Char s) = s := by decide

theorem b64Char_ne_61 : ∀ s : Nat, s < 64 → b64Char s ≠ 61 := by decide

/-- base64 decoding inverts base64 encoding on byte strings. -/
theorem b64_roundtrip : ∀ (bs : List Nat), (∀ b ∈ bs, b < 256) →
    b64Decode (b64Encode bs) = some bs
  | [], _ => rfl
  | [a], hb => by
    have ha : a < 256 := hb a (by simp)
    simp only [b64Encode, b64Decode]
    rw [if_pos trivial, if_pos ⟨trivial, rfl⟩]
    rw [b64Val_b64Char (a / 4) (by omega), b64Val_b64Char (a % 4 * 16) (by omega)]
    have h1 : a / 4 * 4 + a % 4 * 16 / 16 = a := by omega
    rw [h1]
  | [a, b], hb => by
    have ha : a < 256 := hb a (by simp)
    have hbb : b < 256 := hb b (by simp)
    have hc3 : b64Char (b % 16 * 4) ≠ 61 := b64Char_ne_61 _ (by omega)
    simp only [b64Encode, b64Decode]
    have hemp : (List.isEmpty ([] : List Nat)) = true := rfl
    rw [if_neg hc3, if_pos trivial, if_pos hemp]
    rw [b64Val_b64Char (a / 4) (by omega), b64Val_b64Char (a % 4 * 16 + b / 16) (by omega),
      b64Val_b64Char (b % 16 * 4) (by omega)]
    have h1 : a / 4 * 4 + (a % 4 * 16 + b / 16) / 16 = a := by omega
    have h2 : (a % 4 * 16 + b / 16) % 16 * 16 + b % 16 * 4 / 4 = b := by omega
    rw [h1, h2]
  | a :: b :: c :: rest, hb => by
    have ha : a < 256 := hb a (by simp)
    have hbb : b < 256 := hb b (by simp)
    have hc : c < 256 := hb c (by simp)
    have ih := b64_roundtrip rest (fun x hx => hb x (by simp [hx]))
    have hc3 : b64Char (b % 16 * 4 + c / 64) ≠ 61 := b64Char_ne_61 _ (by omega)
    have hc4 : b64Char (c % 64) ≠ 61 := b64Char_ne_61 _ (by omega)
    simp only [b64Encode, b64Decode]
    rw [if_neg hc3, if_neg hc4, ih, Option.map_some']
    rw [b64Val_b64Char (a / 4) (by omega), b64Val_b64Char (a % 4 * 16 + b / 16) (by omega),
      b64Val_b64Char (b % 16 * 4 + c / 64) (by omega), b64Val_b64Char (c % 64) (by omega)]
    have h1 : a / 4 * 4 + (a % 4 * 16 + b / 16) / 16 = a := by omega
    have h2 : (a % 4 * 16 + b / 16) % 16 * 16 + (b % 16 * 4 + c / 64) / 4 = b := by omega
    have h3 : (b % 16 * 4 + c / 64) % 4 * 64 + c % 64 = c := by omega
    rw [h1, h2, h3]

theorem b64Encode_ne_nil : ∀ (bs : List Nat), bs ≠ [] → b64Encode bs ≠ []
  | [], h => absurd rfl h
  | [_], _ => by simp [b64Encode]
  | [_, _], _ => by simp [b64Encode]
  | _ :: _ :: _ :: _, _ => by simp [b64Encode]

/-- An encodable code point has a nonempty UTF-8 encoding made of bytes. -/
theorem utf8EncodeChar_spec : ∀ c : Nat, validChar c →
    ∃ bs, utf8EncodeChar c = some bs ∧ (∀ b ∈ bs, b < 256) ∧ bs ≠ [] := by
  intro c hc
  obtain ⟨h1, h2⟩ := hc
  unfold utf8EncodeChar
  by_cases hA : c < 128
  · refine ⟨[c], by rw [if_pos hA], ?_, by simp⟩
    intro b hbm
    simp only [List.mem_singleton] at hbm
    omega
  · rw [if_neg hA]
    by_cases hB : c < 2048
    · refine ⟨_, by rw [if_pos hB], ?_, by simp⟩
      intro b hbm
      simp only [List.mem_cons, List.mem_singleton] at hbm
      rcases hbm with rfl | rfl | hf
      · omega
      · omega
      · exact absurd hf (List.not_mem_nil b)
    · rw [if_neg hB]
      by_cases hC : c < 65536
      · rw [if_pos hC, if_neg (by omega)]
        refine ⟨_, rfl, ?_, by simp⟩
        intro b hbm
        simp only [List.mem_cons, List.mem_singleton] at hbm
        rcases hbm with rfl | rfl | rfl | hf
        · omega
        · omega
        · omega
        · exact absurd hf (List.not_mem_nil b)
      · rw [if_neg hC, if_pos h1]
        refine ⟨_, rfl, ?_, by simp⟩
        intro b hbm
        simp only [List.mem_cons, List.mem_singleton] at hbm
        rcases hbm with rfl | rfl | rfl | rfl | hf
        · omega
        · omega
        · omega
        · omega
        · exact absurd hf (List.not_mem_nil b)

theorem utf8EncodeChar_ne_nil : ∀ (c : Nat) (eb : List Nat),
    utf8EncodeChar c = some eb → eb ≠ [] := by
  intro c eb h
  unfold utf8EncodeChar at h
  split_ifs at h <;> simp only [Option.some_inj] at h <;> subst h <;> simp

/-- Parsing steps over one encoded character and leaves the rest. -/
theorem utf8DecodeStep_enc : ∀ (c : Nat) (eb : List Nat), utf8EncodeChar c = some eb →
    ∀ rbs, utf8DecodeStep (eb ++ rbs) = some (c, rbs) := by
  intro c eb h rbs
  unfold utf8EncodeChar at h
  by_cases hA : c < 128
  · rw [if_pos hA, Option.some_inj] at h
    subst h
    simp only [List.cons_append, List.nil_append, utf8DecodeStep]
    rw [if_pos hA]
  · rw [if_neg hA] at h
    by_cases hB : c < 2048
    · rw [if_pos hB, Option.some_inj] at h
      subst h
      simp only [List.cons_append, List.nil_append, utf8DecodeStep]
      have g1 : ¬(192 + c / 64 < 128) := by omega
      have g2 : ¬(192 + c / 64 < 192) := by omega
      have g3 : 192 + c / 64 < 224 := by omega
      have g4 : 128 ≤ 128 + c % 64 ∧ 128 + c % 64 < 192 := by omega
      have g5 : 128 ≤ (192 + c / 64 - 192) * 64 + (128 + c % 64 - 128) := by omega
      rw [if_neg g1, if_neg g2, if_pos g3, if_pos g4, if_pos g5]
      have hc : (192 + c / 64 - 192) * 64 + (128 + c % 64 - 128) = c := by omega
      rw [hc]
    · rw [if_neg hB] at h
      by_cases hC : c < 65536
      · rw [if_pos hC] at h
        by_cases hS : 55296 ≤ c ∧ c < 57344
        · rw [if_pos hS] at h
          exact absurd h (by simp)
        · rw [if_neg hS, Option.some_inj] at h
          subst h
          simp only [List.cons_append, List.nil_append, utf8DecodeStep]
          have g1 : ¬(224 + c / 4096 < 128) := by omega
          have g2 : ¬(224 + c / 4096 < 192) := by omega
          have g3 : ¬(224 + c / 4096 < 224) := by omega
          have g4 : 224 + c / 4096 < 240 := by omega
          have g5 : (128 ≤ 128 + c / 64 % 64 ∧ 128 + c / 64 % 64 < 192) ∧
              128 ≤ 128 + c % 64 ∧ 128 + c % 64 < 192 := by omega
          have g6 : 2048 ≤ (224 + c / 4096 - 224) * 4096 + (128 + c / 64 % 64 - 128) * 64 +
                (128 + c % 64 - 128) ∧
              ¬(55296 ≤ (224 + c / 4096 - 224) * 4096 + (128 + c / 64 % 64 - 128) * 64 +
                  (128 + c % 64 - 128) ∧
                (224 + c / 4096 - 224) * 4096 + (128 + c / 64 % 64 - 128) * 64 +
                  (128 + c % 64 - 128) < 57344) := by omega
          rw [if_neg g1, if_neg g2, if_neg g3, if_pos g4, if_pos g5, if_pos g6]
          have hc : (224 + c / 4096 - 224) * 4096 + (128 + c / 64 % 64 - 128) * 64 +
              (128 + c % 64 - 128) = c := by omega
          rw [hc]
      · rw [if_neg hC] at h
        by_cases hD : c < 1114112
        · rw [if_pos hD, Option.some_inj] at h
          subst h
          simp only [List.cons_append, List.nil_append, utf8DecodeStep]
          have g1 : ¬(240 + c / 262144 < 128) := by omega
          have g2 : ¬(240 + c / 262144 < 192) := by omega
          have g3 : ¬(240 + c / 262144 < 224) := by omega
          have g4 : ¬(240 + c / 262144 < 240) := by omega
          have g5 : 240 + c / 262144 < 248 := by omega
          have g6 : ((128 ≤ 128 + c / 4096 % 64 ∧ 128 + c / 4096 % 64 < 192) ∧
              128 ≤ 128 + c / 64 % 64 ∧ 128 + c / 64 % 64 < 192) ∧
              128 ≤ 128 + c % 64 ∧ 128 + c % 64 < 192 := by omega
          have g7 : 65536 ≤ (240 + c / 262144 - 240) * 262144 +
                (128 + c / 4096 % 64 - 128) * 4096 +
                (128 + c / 64 % 64 - 128) * 64 + (128 + c % 64 - 128) ∧
              (240 + c / 262144 - 240) * 262144 + (128 + c / 4096 % 64 - 128) * 4096 +
                (128 + c / 64 % 64 - 128) * 64 + (128 + c % 64 - 128) < 1114112 := by omega
          rw [if_neg g1, if_neg g2, if_neg g3, if_neg g4, if_pos g5, if_pos g6, if_pos g7]
          have hc : (240 + c / 262144 - 240) * 262144 + (128 + c / 4096 % 64 - 128) * 4096 +
              (128 + c / 64 % 64 - 128) * 64 + (128 + c % 64 - 128) = c := by omega
          rw [hc]
        · rw [if_neg hD] at h
          exact absurd h (by simp)

theorem utf8DecodeLoop_enc : ∀ (k : Key) (bs : List Nat), utf8Encode k = some bs →
    ∀ fuel, bs.length ≤ fuel → utf8DecodeLoop fuel bs = some k
  | [], bs, h, fuel, _ => by
    rw [utf8Encode, Option.some_inj] at h
    subst h
    cases fuel <;> rfl
  | c :: cs, bs, h, fuel, hf => by
    rw [utf8Encode] at h
    cases he : utf8EncodeChar c with
    | none =>
      rw [he] at h
      exact absurd h (by simp)
    | some eb =>
      rw [he] at h
      cases hrest : utf8Encode cs with
      | none =>
        rw [hrest] at h
        exact absurd h (by simp)
      | some rbs =>
        rw [hrest] at h
        simp only [Option.some_inj] at h
        subst h
        obtain ⟨b0, ebt, rfl⟩ : ∃ b0 ebt, eb = b0 :: ebt := by
          cases eb with
          | nil => exact absurd rfl (utf8EncodeChar_ne_nil c [] he)
          | cons b0 ebt => exact ⟨b0, ebt, rfl⟩
        rw [List.cons_append] at hf ⊢
        cases fuel with
        | zero => simp at hf
        | succ f =>
          have hstep : utf8DecodeStep (b0 :: (ebt ++ rbs)) = some (c, rbs) := by
            have := utf8DecodeStep_enc c (b0 :: ebt) he rbs
            rwa [List.cons_append] at this
          rw [utf8DecodeLoop, hstep]
          have hlen : rbs.length ≤ f := by
            simp only [List.length_cons, List.length_append] at hf
            omega
          show Option.map (fun x => c :: x) (utf8DecodeLoop f rbs) = some (c :: cs)
          rw [utf8DecodeLoop_enc cs rbs hrest f hlen]
          rfl

/-- UTF-8 decoding inverts UTF-8 encoding. -/
theorem utf8_roundtrip : ∀ (k : Key) (bs : List Nat), utf8Encode k = some bs →
    utf8Decode bs = some k := by
  intro k bs h
  exact utf8DecodeLoop_enc k bs h bs.length (Nat.le_refl _)

/-- An encodable string has a UTF-8 byte encoding; it is made of bytes and
is nonempty when the string is. -/
theorem utf8Encode_spec : ∀ (k : Key), validKey k →
    ∃ bs, utf8Encode k = some bs ∧ (∀ b ∈ bs, b < 256) ∧ (k ≠ [] → bs ≠ []) := by
  intro k
  induction k with
  | nil => intro _; exact ⟨[], rfl, by simp, fun hk => absurd rfl hk⟩
  | cons c cs ih =>
    intro hv
    obtain ⟨eb, he, heb, hene⟩ := utf8EncodeChar_spec c (hv c (by simp))
    obtain ⟨rbs, hrest, hrb, _⟩ := ih (fun x hx => hv x (by simp [hx]))
    refine ⟨eb ++ rbs, ?_, ?_, ?_⟩
    · rw [utf8Encode, he, hrest]
    · intro b hbm
      rcases List.mem_append.mp hbm with hm | hm
      · exact heb b hm
      · exact hrb b hm
    · intro _ happ
      exact hene (List.append_eq_nil.mp happ).1

/-- The cursor round trip: encoding a valid key and decoding the result
yields the key followed by the minimal code point, and the cursor of a
nonempty key is itself nonempty (truthy in Python). -/
theorem cursor_roundtrip : ∀ (k : Key), validKey k →
    ∃ cur, encodeCursor k = some cur ∧ decodeCursor cur = some (k ++ [0]) ∧
      (k ≠ [] → cur ≠ []) := by
  intro k hk
  obtain ⟨bs, hbs, hlt, hne⟩ := utf8Encode_spec k hk
  refine ⟨b64Encode bs, ?_, ?_, ?_⟩
  · rw [encodeCursor, hbs, Option.map_some']
  · rw [decodeCursor.eq_def, b64_roundtrip bs hlt]
    show (utf8Decode bs).map (fun k2 => k2 ++ [0]) = some (k ++ [0])
    rw [utf8_roundtrip k bs hbs, Option.map_some']
  · intro hkne
    exact b64Encode_ne_nil bs (hne hkne)

/-- C5: For every string key `k` (of encodable code points), decoding the
cursor produced by encoding `k` yields `k` followed by the minimal code
point, so a forward iteration resumed from that cursor starts strictly
after `k`: it never returns an entry keyed `k` and omits no stored entry
whose key is strictly greater than `k`. -/
theorem claim_C5_cursor_strictly_after {V : Type} (k : Key) (db : List (Key × V))
    (hk : validKey k) (hs : sortedKV db = true) :
    ∃ cur, encodeCursor k = some cur ∧ decodeCursor cur = some (k ++ [0]) ∧
      ∃ r, iterModel db none (some (k ++ [0])) none false = some r ∧
        (∀ kv ∈ r, kv.1 ≠ k) ∧
        (∀ kv ∈ db, keyLt k kv.1 = true → kv ∈ r) := by
  obtain ⟨cur, henc, hdec, _⟩ := cursor_roundtrip k hk
  refine ⟨cur, henc, hdec,
    db.filter (fun kv => inRange (some (k ++ [0])) none kv.1),
    iterModel_fwd db hs (some (k ++ [0])) none, ?_, ?_⟩
  · intro kv hm heq
    obtain ⟨_, hpred⟩ := List.mem_filter.mp hm
    have hlt := keyLt_append_cons k 0 []
    rw [heq] at hpred
    simp [inRange, checkLtStart, checkGeEnd, hlt] at hpred
  · intro kv hmem hgt
    exact List.mem_filter.mpr ⟨hmem,
      by simp [inRange, checkLtStart, checkGeEnd, keyLt_zero_ext k kv.1 hgt]⟩

theorem claim_C5_cursor_strictly_after_witness :
    validKey [98] ∧
    sortedKV ([([97], 1), ([98], 2), ([98, 0], 3), ([99], 4)] : List (Key × Nat)) = true ∧
    (∃ cur, encodeCursor [98] = some cur ∧ decodeCursor cur = some ([98] ++ [0]) ∧
      ∃ r, iterModel ([([97], 1), ([98], 2), ([98, 0], 3), ([99], 4)] : List (Key × Nat))
          none (some ([98] ++ [0])) none false = some r ∧
        (∀ kv ∈ r, kv.1 ≠ [98]) ∧
        (∀ kv ∈ ([([97], 1), ([98], 2), ([98, 0], 3), ([99], 4)] : List (Key × Nat)),
          keyLt [98] kv.1 = true → kv ∈ r)) :=
  ⟨by decide, by decide,
    claim_C5_cursor_strictly_after [98]
      ([([97], 1), ([98], 2), ([98, 0], 3), ([99], 4)] : List (Key × Nat))
      (by decide) (by decide)⟩

/-- Inversion of `paginate`: any successful call fetched
`page_size + 1` items from an iteration `full`, reports `has_more` exactly
when that fetch overflowed `page_size`, trims the overflow item, and sets
`next_cursor` to the encoding of the last returned key exactly when
`has_more` holds and the page is nonempty. -/
theorem paginateModel_spec {V : Type} (db : List (Key × V)) (ps : Nat)
    (cursor : Option (List Nat)) (ic : Bool) (pfxO startO endO : Option Key) (rev : Bool)
    (page : Page V) (h : paginateModel db ps cursor ic pfxO startO endO rev = some page) :
    ∃ s2 full, iterModel db pfxO s2 endO rev = some full ∧
      page.hasMore = decide (ps < (full.take (ps + 1)).length) ∧
      page.items = (if page.hasMore then (full.take (ps + 1)).take ps
        else full.take (ps + 1)) ∧
      (page.hasMore = true ∧ page.items ≠ [] →
        ∃ kv nc, page.items.getLast? = some kv ∧ encodeCursor kv.1 = some nc ∧
          page.nextCursor = some nc) ∧
      (¬(page.hasMore = true ∧ page.items ≠ []) → page.nextCursor = none) := by
  rw [paginateModel.eq_def] at h
  split at h
  · exact absurd h (by simp)
  · rename_i s2 hs2
    split at h
    · exact absurd h (by simp)
    · rename_i fetched hfetched
      obtain ⟨full, hfull, rfl⟩ :
          ∃ full, iterModel db pfxO s2 endO rev = some full ∧ fetched = full.take (ps + 1) := by
        rw [itemsModel, Option.map_eq_some'] at hfetched
        obtain ⟨full, hfull, hf⟩ := hfetched
        exact ⟨full, hfull, hf.symm⟩
      split at h
      · exact absurd h (by simp)
      · rename_i nc hnc
        simp only [Option.some_inj] at h
        subst h
        refine ⟨s2, full, hfull, rfl, rfl, ?_, ?_⟩
        · intro hcond
          obtain ⟨hhm, hne⟩ := hcond
          rw [nextCursorOf] at hnc
          rw [if_pos ⟨hhm, by simpa using hne⟩] at hnc
          cases hlast : (if decide (ps < (full.take (ps + 1)).length)
              then (full.take (ps + 1)).take ps else full.take (ps + 1)).getLast? with
          | none =>
            rw [hlast] at hnc
            exact absurd (List.getLast?_eq_none_iff.mp hlast) (by simpa using hne)
          | some kv =>
            rw [hlast] at hnc
            rw [Option.map_eq_some'] at hnc
            obtain ⟨nc0, henc0, hnc0⟩ := hnc
            exact ⟨kv, nc0, rfl, henc0, by rw [← hnc0]⟩
        · intro hcond
          rw [nextCursorOf] at hnc
          rw [if_neg (by
            intro hc
            exact hcond ⟨hc.1, by simpa using hc.2⟩)] at hnc
          simp only [Option.some_inj] at hnc
          rw [← hnc]

/-- C6: A successful `paginate` call fetches `page_size + 1` items from the
underlying iteration to detect `has_more` without a second lookup
(`has_more` holds exactly when the iteration has more than `page_size`
items), trims the extra item before returning (`items` is the first
`page_size` iteration items), and `next_cursor` is the encoding of the last
returned item's key when more pages exist and empty (`None`) when no
further pages exist. -/
theorem claim_C6_fetch_trim_next_cursor {V : Type} (db : List (Key × V)) (ps : Nat)
    (cursor : Option (List Nat)) (ic : Bool) (pfxO startO endO : Option Key) (rev : Bool)
    (page : Page V) (hps : 1 ≤ ps)
    (h : paginateModel db ps cursor ic pfxO startO endO rev = some page) :
    ∃ s2 full, iterModel db pfxO s2 endO rev = some full ∧
      page.items = full.take ps ∧
      page.hasMore = decide (ps < full.length) ∧
      (page.hasMore = true → ∃ kv nc, page.items.getLast? = some kv ∧
        encodeCursor kv.1 = some nc ∧ page.nextCursor = some nc) ∧
      (page.hasMore = false → page.nextCursor = none) := by
  obtain ⟨s2, full, hfull, hhm, hitems, h4, h5⟩ :=
    paginateModel_spec db ps cursor ic pfxO startO endO rev page h
  have hlen : (full.take (ps + 1)).length = min (ps + 1) full.length := List.length_take ..
  have hiff : (ps < (full.take (ps + 1)).length) ↔ (ps < full.length) := by
    rw [hlen]
    omega
  have hhm2 : page.hasMore = decide (ps < full.length) := by
    rw [hhm, decide_eq_decide.mpr hiff]
  have hitems2 : page.items = full.take ps := by
    rw [hitems]
    by_cases hlt : ps < full.length
    · rw [if_pos (by rw [hhm2]; simpa using hlt), List.take_take]
      have : min ps (ps + 1) = ps := by omega
      rw [this]
    · rw [if_neg (by rw [hhm2]; simpa using hlt)]
      rw [List.take_of_length_le (by omega), List.take_of_length_le (by omega)]
  refine ⟨s2, full, hfull, hitems2, hhm2, ?_, ?_⟩
  · intro hm
    apply h4
    refine ⟨hm, ?_⟩
    have hlt : ps < full.length := by
      rw [hhm2] at hm
      simpa using hm
    rw [hitems2]
    intro hnil
    have := congrArg List.length hnil
    rw [List.length_take] at this
    simp only [List.length_nil] at this
    omega
  · intro hm
    apply h5
    intro hc
    rw [hm] at hc
    exact absurd hc.1 (by simp)

theorem claim_C6_fetch_trim_next_cursor_witness :
    1 ≤ 2 ∧
    paginateModel ([([97], 1), ([98], 2), ([99], 3)] : List (Key × Nat)) 2 none true
        none none none false =
      some { items := [([97], 1), ([98], 2)], hasMore := true,
             nextCursor := some [89, 103, 61, 61], prevCursor := none } ∧
    (∃ s2 full,
      iterModel ([([97], 1), ([98], 2), ([99], 3)] : List (Key × Nat)) none s2 none false =
        some full ∧
      ({ items := [([97], 1), ([98], 2)], hasMore := true,
         nextCursor := some [89, 103, 61, 61],
         prevCursor := none } : Page Nat).items = full.take 2 ∧
      ({ items := [([97], 1), ([98], 2)], hasMore := true,
         nextCursor := some [89, 103, 61, 61],
         prevCursor := none } : Page Nat).hasMore = decide (2 < full.length) ∧
      (({ items := [([97], 1), ([98], 2)], hasMore := true,
          nextCursor := some [89, 103, 61, 61],
          prevCursor := none } : Page Nat).hasMore = true →
        ∃ kv nc, ([(([97] : Key), 1), ([98], 2)]).getLast? = some kv ∧
          encodeCursor kv.1 = some nc ∧
          ({ items := [([97], 1), ([98], 2)], hasMore := true,
             nextCursor := some [89, 103, 61, 61],
             prevCursor := none } : Page Nat).nextCursor = some nc) ∧
      (({ items := [([97], 1), ([98], 2)], hasMore := true,
          nextCursor := some [89, 103, 61, 61],
          prevCursor := none } : Page Nat).hasMore = false →
        ({ items := [([97], 1), ([98], 2)], hasMore := true,
           nextCursor := some [89, 103, 61, 61],
           prevCursor := none } : Page Nat).nextCursor = none)) :=
  ⟨by omega, by decide,
    claim_C6_fetch_trim_next_cursor ([([97], 1), ([98], 2), ([99], 3)] : List (Key × Nat))
      2 none true none none none false _ (by omega) (by decide)⟩

/-- C10: For every `page_size >= 1`, every cursor and all store contents
(and any forwarded `iter` arguments), a successful `paginate` call returns
at most `page_size` items, and its `next_cursor` is non-`None` exactly when
`has_more` is true. -/
theorem claim_C10_page_invariants {V : Type} (db : List (Key × V)) (ps : Nat)
    (cursor : Option (List Nat)) (ic : Bool) (pfxO startO endO : Option Key) (rev : Bool)
    (page : Page V) (hps : 1 ≤ ps)
    (h : paginateModel db ps cursor ic pfxO startO endO rev = some page) :
    page.items.length ≤ ps ∧ (page.nextCursor ≠ none ↔ page.hasMore = true) := by
  obtain ⟨s2, full, hfull, hhm, hitems, h4, h5⟩ :=
    paginateModel_spec db ps cursor ic pfxO startO endO rev page h
  constructor
  · rw [hitems]
    by_cases hb : page.hasMore = true
    · rw [if_pos hb]
      exact List.length_take_le ..
    · rw [if_neg hb]
      rw [hhm] at hb
      have := List.length_take_le (ps + 1) full
      have hlen : (full.take (ps + 1)).length ≤ ps := by
        by_contra hc
        exact hb (by simpa using (by omega : ps < (full.take (ps + 1)).length))
      exact hlen
  · constructor
    · intro hne
      by_contra hb
      exact hne (h5 (fun hc => hb hc.1))
    · intro hm
      have hlt : ps < (full.take (ps + 1)).length := by
        rw [hhm] at hm
        simpa using hm
      have hne : page.items ≠ [] := by
        rw [hitems, if_pos hm]
        intro hnil
        have := congrArg List.length hnil
        rw [List.length_take] at this
        simp only [List.length_nil] at this
        omega
      obtain ⟨kv, nc, _, _, hcur⟩ := h4 ⟨hm, hne⟩
      rw [hcur]
      simp

theorem claim_C10_page_invariants_witness :
    1 ≤ 2 ∧
    paginateModel ([([97], 1), ([98], 2), ([99], 3)] : List (Key × Nat)) 2 none true
        none none none false =
      some { items := [([97], 1), ([98], 2)], hasMore := true,
             nextCursor := some [89, 103, 61, 61], prevCursor := none } ∧
    (({ items := [([97], 1), ([98], 2)], hasMore := true,
        nextCursor := some [89, 103, 61, 61],
        prevCursor := none } : Page Nat).items.length ≤ 2 ∧
      (({ items := [([97], 1), ([98], 2)], hasMore := true,
          nextCursor := some [89, 103, 61, 61],
          prevCursor := none } : Page Nat).nextCursor ≠ none ↔
        ({ items := [([97], 1), ([98], 2)], hasMore := true,
           nextCursor := some [89, 103, 61, 61],
           prevCursor := none } : Page Nat).hasMore = true)) :=
  ⟨by omega, by decide,
    claim_C10_page_invariants ([([97], 1), ([98], 2), ([99], 3)] : List (Key × Nat))
      2 none true none none none false _ (by omega) (by decide)⟩

theorem nextCursorOf_false {V : Type} (l : List (Key × V)) :
    nextCursorOf false l = some none := by
  have hcond : ¬((false : Bool) = true ∧ ¬l.isEmpty = true) := by simp
  rw [nextCursorOf, if_neg hcond]

theorem nextCursorOf_true {V : Type} (l : List (Key × V)) (kv : Key × V)
    (nc : List Nat) (hlast : l.getLast? = some kv) (henc : encodeCursor kv.1 = some nc)
    (hne : l ≠ []) : nextCursorOf true l = some (some nc) := by
  have hcond : ((true : Bool) = true ∧ ¬l.isEmpty = true) := ⟨rfl, by simpa using hne⟩
  rw [nextCursorOf, if_pos hcond, hlast]
  show Option.map some (encodeCursor kv.1) = some (some nc)
  rw [henc, Option.map_some']

theorem filter_inRange_none_none {V : Type} (db : List (Key × V)) :
    db.filter (fun kv => inRange none none kv.1) = db := by
  apply List.filter_eq_self.mpr
  intro x _
  rfl

/-- In a sorted snapshot, the keys at least `key-of-entry-j + chr(0)` are
exactly the entries after position `j`: resuming from the cursor of the
entry at `j` continues with the rest of the snapshot. -/
theorem filter_after_key {V : Type} (db : List (Key × V)) (hs : sortedKV db = true)
    (j : Nat) (kv : Key × V) (hkv : db[j]? = some kv) :
    db.filter (fun x => inRange (some (kv.1 ++ [0])) none x.1) = db.drop (j + 1) := by
  have hp := sortedKV_pairwise db hs
  obtain ⟨hj, hkvj⟩ := List.getElem?_eq_some.mp hkv
  conv_lhs => rw [← List.take_append_drop (j + 1) db]
  rw [List.filter_append]
  have htk : db.take (j + 1) = db.take j ++ [kv] := by
    rw [List.take_succ, hkv]
    rfl
  have htake : (db.take (j + 1)).filter (fun x => inRange (some (kv.1 ++ [0])) none x.1) = [] := by
    rw [List.filter_eq_nil_iff]
    intro x hx
    rw [htk] at hx
    have hxlt : keyLt x.1 (kv.1 ++ [0]) = true := by
      rcases List.mem_append.mp hx with hx1 | hx2
      · have hpt : List.Pairwise (fun a b => keyLt a.1 b.1 = true) (db.take j ++ [kv]) := by
          rw [← htk]
          exact hp.sublist (List.take_sublist (j + 1) db)
        have := (List.pairwise_append.mp hpt).2.2 x hx1 kv (List.mem_singleton_self _)
        exact keyLt_trans _ _ _ this (keyLt_append_cons kv.1 0 [])
      · rw [List.mem_singleton.mp hx2]
        exact keyLt_append_cons kv.1 0 []
    simp [inRange, checkLtStart, checkGeEnd, hxlt]
  rw [htake, List.nil_append]
  apply List.filter_eq_self.mpr
  intro x hx
  have hdropped : db.drop j = kv :: db.drop (j + 1) := by
    rw [List.drop_eq_getElem_cons hj, hkvj]
  have hpd := hp.sublist (List.drop_sublist j db)
  rw [hdropped] at hpd
  have hgt := (List.pairwise_cons.mp hpd).1 x hx
  simp [inRange, checkLtStart, checkGeEnd, keyLt_zero_ext kv.1 x.1 hgt]

theorem getLast?_take_of_le {α : Type} (l : List α) (n : Nat) (hn : 1 ≤ n)
    (hlen : n ≤ l.length) : (l.take n).getLast? = l[n - 1]? := by
  rw [List.getLast?_eq_getElem?, List.length_take]
  have hmin : min n l.length = n := by omega
  rw [hmin, List.getElem?_take]
  rw [if_pos (by omega)]

/-- In a sorted snapshot, every entry after the first has a nonempty key
(some key strictly precedes it). -/
theorem key_ne_nil_of_pos {V : Type} (db : List (Key × V)) (hs : sortedKV db = true)
    (j : Nat) (kv : Key × V) (hj : db[j]? = some kv) (hpos : 1 ≤ j) : kv.1 ≠ [] := by
  have hp := sortedKV_pairwise db hs
  obtain ⟨hjl, hkvj⟩ := List.getElem?_eq_some.mp hj
  have hj0 : j - 1 < db.length := by omega
  have hrel := List.pairwise_iff_getElem.mp hp (j - 1) j hj0 hjl (by omega)
  rw [hkvj] at hrel
  exact keyLt_ne_nil _ _ hrel

/-- Evaluation of one `paginate` call from its three intermediate results:
the cursor-derived start bound, the `page_size + 1` fetch, and the
next-cursor computation. -/
theorem paginateModel_eval {V : Type} (db : List (Key × V)) (ps : Nat)
    (cursor : Option (List Nat)) (ic : Bool) (pfxO startO endO : Option Key) (rev : Bool)
    (s2 : Option Key) (fetched : List (Key × V)) (nc : Option (List Nat))
    (hcurm : cursorStart cursor startO = some s2)
    (hitem : itemsModel db pfxO s2 endO rev (some (ps + 1)) = some fetched)
    (hncur : nextCursorOf (decide (ps < fetched.length))
      (if decide (ps < fetched.length) then fetched.take ps else fetched) = some nc) :
    paginateModel db ps cursor ic pfxO startO endO rev =
      some { items := if decide (ps < fetched.length) then fetched.take ps else fetched,
             hasMore := decide (ps < fetched.length), nextCursor := nc,
             prevCursor := if ic && cursorTruthy cursor then cursor else none } := by
  rw [paginateModel.eq_def, hcurm]
  show (match itemsModel db pfxO s2 endO rev (some (ps + 1)) with
        | none => none
        | some fetched =>
          match nextCursorOf (decide (ps < fetched.length))
              (if decide (ps < fetched.length) then fetched.take ps else fetched) with
          | none => none
          | some nc =>
            some ({ items := if decide (ps < fetched.length) then fetched.take ps
                      else fetched,
                    hasMore := decide (ps < fetched.length), nextCursor := nc,
                    prevCursor := if ic && cursorTruthy cursor then cursor
                      else none } : Page V)) = _
  rw [hitem]
  show (match nextCursorOf (decide (ps < fetched.length))
          (if decide (ps < fetched.length) then fetched.take ps else fetched) with
        | none => none
        | some nc =>
          some ({ items := if decide (ps < fetched.length) then fetched.take ps else fetched,
                  hasMore := decide (ps < fetched.length), nextCursor := nc,
                  prevCursor := if ic && cursorTruthy cursor then cursor
                    else none } : Page V)) = _
  rw [hncur]

/-- Driving `paginate` with `page_size = 10` over a sorted snapshot of
encodable keys: starting `n` pages (of ten entries each) before the end —
either from the first page or from a cursor that resumes at position `i` —
the protocol of feeding each `next_cursor` forward returns exactly the
remaining entries in order, and the final page reports `has_more = false`
with an empty `next_cursor`. -/
theorem paginateAll_ten {V : Type} :
    ∀ (n : Nat) (db : List (Key × V)) (i : Nat) (cursor : Option (List Nat)),
      sortedKV db = true → (∀ kv ∈ db, validKey kv.1) →
      db.length - i = 10 * n → 0 < n → i ≤ db.length →
      ((cursor = none ∧ i = 0) ∨
        (∃ c, cursor = some c ∧ c ≠ [] ∧ ∃ k2, decodeCursor c = some k2 ∧
          db.filter (fun kv => inRange (some k2) none kv.1) = db.drop i)) →
      paginateAll db 10 n cursor = some (db.drop i, false, none) := by
  intro n
  induction n with
  | zero =>
    intro db i cursor _ _ _ hpos _ _
    omega
  | succ n ih =>
    intro db i cursor hs hv hrem hpos hile hres
    have hfull : ∃ s2, cursorStart cursor none = some s2 ∧
        iterModel db none s2 none false = some (db.drop i) := by
      rcases hres with ⟨rfl, rfl⟩ | ⟨c, rfl, hcne, k2, hdec, hfilt⟩
      · refine ⟨none, rfl, ?_⟩
        rw [iterModel_fwd db hs none none, filter_inRange_none_none, List.drop_zero]
      · refine ⟨some k2, ?_, ?_⟩
        · have hce : c.isEmpty = false := by
            cases c with
            | nil => exact absurd rfl hcne
            | cons x xs => rfl
          rw [cursorStart, hce]
          show (decodeCursor c).map some = some (some k2)
          rw [hdec, Option.map_some']
        · rw [iterModel_fwd db hs (some k2) none, hfilt]
    obtain ⟨s2, hcurm, hiter⟩ := hfull
    have hdroplen : (db.drop i).length = db.length - i := List.length_drop ..
    by_cases hn1 : n = 0
    · subst hn1
      have hrem10 : (db.drop i).length = 10 := by omega
      have htk : (db.drop i).take 11 = db.drop i := List.take_of_length_le (by omega)
      have hitem2 : itemsModel db none s2 none false (some (10 + 1)) =
          some (db.drop i) := by
        rw [itemsModel, hiter, Option.map_some']
        show some ((db.drop i).take 11) = some (db.drop i)
        rw [htk]
      have hdec10 : decide (10 < (db.drop i).length) = false := by
        rw [hrem10]
        rfl
      have hncur2 : nextCursorOf (decide (10 < (db.drop i).length))
          (if decide (10 < (db.drop i).length) then (db.drop i).take 10 else db.drop i) =
          some none := by
        rw [hdec10]
        exact nextCursorOf_false _
      have hpag := paginateModel_eval db 10 cursor true none none none false s2
        (db.drop i) none hcurm hitem2 hncur2
      rw [hdec10] at hpag
      rw [paginateAll, hpag]
      rfl
    · have hn2 : 0 < n := Nat.pos_of_ne_zero hn1
      have hlen20 : 20 ≤ (db.drop i).length := by omega
      have hitem2 : itemsModel db none s2 none false (some (10 + 1)) =
          some ((db.drop i).take 11) := by
        rw [itemsModel, hiter, Option.map_some']
      have hlen11 : ((db.drop i).take 11).length = 11 := by
        rw [List.length_take]
        omega
      have hdec11 : decide (10 < ((db.drop i).take 11).length) = true := by
        rw [hlen11]
        rfl
      have htt : ((db.drop i).take 11).take 10 = (db.drop i).take 10 := by
        rw [List.take_take]
        norm_num
      have hi9 : i + 9 < db.length := by omega
      obtain ⟨kv, hkv⟩ : ∃ kv, db[i + 9]? = some kv :=
        ⟨db[i + 9], List.getElem?_eq_getElem hi9⟩
      have hkvmem : kv ∈ db := List.getElem?_mem hkv
      obtain ⟨nc, henc, hdecnc, hncne0⟩ : ∃ nc, encodeCursor kv.1 = some nc ∧
          decodeCursor nc = some (kv.1 ++ [0]) ∧ (kv.1 ≠ [] → nc ≠ []) :=
        cursor_roundtrip kv.1 (hv kv hkvmem)
      have hkvne : kv.1 ≠ [] := key_ne_nil_of_pos db hs (i + 9) kv hkv (by omega)
      have hlast10 : ((db.drop i).take 10).getLast? = some kv := by
        rw [getLast?_take_of_le (db.drop i) 10 (by omega) (by omega), List.getElem?_drop]
        exact hkv
      have hne10 : (db.drop i).take 10 ≠ [] := by
        intro hnil
        have hl := congrArg List.length hnil
        rw [List.length_take] at hl
        simp only [List.length_nil] at hl
        omega
      have hncur : nextCursorOf true ((db.drop i).take 10) = some (some nc) :=
        nextCursorOf_true _ kv nc hlast10 henc hne10
      have hncur2 : nextCursorOf (decide (10 < ((db.drop i).take 11).length))
          (if decide (10 < ((db.drop i).take 11).length) then ((db.drop i).take 11).take 10
           else (db.drop i).take 11) = some (some nc) := by
        rw [hdec11, htt]
        exact hncur
      have hpag := paginateModel_eval db 10 cursor true none none none false s2
        ((db.drop i).take 11) (some nc) hcurm hitem2 hncur2
      rw [hdec11, htt] at hpag
      have hihres := ih db (i + 10) (some nc) hs hv (by omega) hn2 (by omega)
        (Or.inr ⟨nc, rfl, hncne0 hkvne, kv.1 ++ [0], hdecnc, by
          have h910 : i + 9 + 1 = i + 10 := by omega
          rw [← h910]
          exact filter_after_key db hs (i + 9) kv hkv⟩)
      rw [paginateAll, hpag]
      show (match paginateAll db 10 n (some nc) with
            | none => none
            | some r => some ((db.drop i).take 10 ++ r.1, r.2.1, r.2.2)) =
          some (db.drop i, false, none)
      rw [hihres]
      show some ((db.drop i).take 10 ++ db.drop (i + 10), false, none) =
        some (db.drop i, false, none)
      have hsplit : (db.drop i).take 10 ++ db.drop (i + 10) = db.drop i := by
        have hdd : db.drop (i + 10) = (db.drop i).drop 10 := (List.drop_drop ..).symm
        rw [hdd, List.take_append_drop]
      rw [hsplit]

/-- C1: For a store holding 100 items under distinct (sorted, encodable)
string keys, repeatedly calling `paginate` with `page_size = 10` and
feeding each returned `next_cursor` into the next call returns all 100
items exactly once, in ascending key order (the concatenation of the pages
is exactly the ascending snapshot), and on the final page `has_more` is
false and `next_cursor` is empty (`None`). -/
theorem claim_C1_pagination_completeness {V : Type} (db : List (Key × V))
    (hs : sortedKV db = true) (hv : ∀ kv ∈ db, validKey kv.1)
    (hlen : db.length = 100) :
    paginateAll db 10 10 none = some (db, false, none) := by
  have h := paginateAll_ten 10 db 0 none hs hv (by omega) (by omega) (by omega)
    (Or.inl ⟨rfl, rfl⟩)
  rwa [List.drop_zero] at h

theorem claim_C1_pagination_completeness_witness :
    sortedKV ((List.range 100).map (fun j => (([48 + j] : Key), j))) = true ∧
    (∀ kv ∈ (List.range 100).map (fun j => (([48 + j] : Key), j)), validKey kv.1) ∧
    ((List.range 100).map (fun j => (([48 + j] : Key), j))).length = 100 ∧
    paginateAll ((List.range 100).map (fun j => (([48 + j] : Key), j))) 10 10 none =
      some ((List.range 100).map (fun j => (([48 + j] : Key), j)), false, none) :=
  ⟨by decide, by decide, by decide,
    claim_C1_pagination_completeness _ (by decide) (by decide) (by decide)⟩

theorem keyStartsWith_refl : ∀ (p : Key), keyStartsWith p p = true := by
  intro p
  induction p with
  | nil => rfl
  | cons c cs ih => simp [keyStartsWith, ih]

/-- A string strictly between a scan segment `p` and its derived upper
bound starts with `p`. -/
theorem between_pfx : ∀ (p b bound : Key), pfxUpper p = some bound →
    keyLt p b = true → keyLt b bound = true → keyStartsWith p b = true := by
  intro p
  induction p with
  | nil =>
    intro b bound hb _ _
    simp [pfxUpper] at hb
  | cons c p2 ih =>
    intro b bound hb hpb hbb
    cases p2 with
    | nil =>
      simp only [pfxUpper, List.getLast?_singleton, chrOrd] at hb
      by_cases hc : c + 1 < 1114112
      · rw [if_pos hc] at hb
        simp only [Option.map_some', Option.some.injEq] at hb
        subst hb
        cases b with
        | nil => simp [keyLt] at hpb
        | cons x t =>
          simp only [List.dropLast_single, List.nil_append] at hbb
          rw [keyLt] at hpb hbb
          rcases Nat.lt_trichotomy c x with h1 | h1 | h1
          · rcases Nat.lt_trichotomy x (c + 1) with h2 | h2 | h2
            · omega
            · subst h2
              simp only [Nat.lt_irrefl, if_false] at hbb
              rw [keyLt_nil_right] at hbb
              exact absurd hbb (by simp)
            · rw [if_neg (by omega), if_pos (by omega)] at hbb
              exact absurd hbb (by simp)
          · subst h1
            simp [keyStartsWith]
          · simp [h1, Nat.lt_asymm h1] at hpb
      · rw [if_neg hc] at hb
        simp at hb
    | cons c3 p3 =>
      have hlast : (c :: c3 :: p3).getLast? = (c3 :: p3).getLast? := by
        rw [List.getLast?_cons_cons]
      have hdl : (c :: c3 :: p3).dropLast = c :: (c3 :: p3).dropLast := rfl
      rw [pfxUpper, hlast, hdl] at hb
      cases hlast2 : (c3 :: p3).getLast? with
      | none => simp [hlast2] at hb
      | some cl =>
        rw [hlast2] at hb
        cases hchr : chrOrd (cl + 1) with
        | none => simp [hchr] at hb
        | some cu =>
          simp only [hchr, Option.map_some', Option.some.injEq] at hb
          subst hb
          have hb2 : pfxUpper (c3 :: p3) = some ((c3 :: p3).dropLast ++ [cu]) := by
            simp only [pfxUpper, hlast2, hchr, Option.map_some']
          cases b with
          | nil => simp [keyLt] at hpb
          | cons x t =>
            rw [keyLt] at hpb
            rw [List.cons_append, keyLt] at hbb
            rcases Nat.lt_trichotomy c x with h1 | h1 | h1
            · rw [if_neg (Nat.lt_asymm h1), if_pos h1] at hbb
              exact absurd hbb (by simp)
            · subst h1
              simp only [Nat.lt_irrefl, if_false] at hpb hbb
              simp only [keyStartsWith, beq_self_eq_true, Bool.true_and]
              exact ih t ((c3 :: p3).dropLast ++ [cu]) hb2 hpb hbb
            · simp [h1, Nat.lt_asymm h1] at hpb

/-- The derived upper bound is the least strict upper bound of the strings
starting with the scan segment: together with `pfxUpper_greater` this is
the "lexicographically smallest string strictly greater than every string
with the given leading segment" property, which holds whenever the
derivation does not raise. -/
theorem pfxUpper_least : ∀ (p bound b : Key), pfxUpper p = some bound →
    (∀ s, keyStartsWith p s = true → keyLt s b = true) → keyLt b bound = false := by
  intro p bound b hb hub
  cases hlt : keyLt b bound with
  | false => rfl
  | true =>
    have hpb : keyLt p b = true := hub p (keyStartsWith_refl p)
    have hsw : keyStartsWith p b = true := between_pfx p b bound hb hpb hlt
    have hbb := hub b hsw
    rw [keyLt_irrefl] at hbb
    exact absurd hbb (by simp)
